import Mathlib

/-!
Verification of the hierarchical file-system metadata model of the
frisync repository.

The repository ships the persisted schema for the `file_system_entries`
table (Drizzle schema plus generated SQL migration) together with its
specification of the Entry Store operations (create, rename, move,
softDelete, restore, star, listChildren, get), the Path Resolver
(resolvePath, ancestorsOf) and the Integrity Guard.  The schema is
embedded below directly from the source; the Entry Store, Path Resolver
and Integrity Guard operations are not present under the source tree
(only their declarations and the schema are), so each of those
operations is modelled from the specification text, faithfully to its
words, and marked as such in its doc comment.
-/

namespace Frisync

/-- The recoverable error kinds of the Entry Store. -/
inductive FsError where
  | NotFound
  | Forbidden
  | InvalidParent
  | CycleDetected
  | InvalidName
  | InvalidRestore
deriving Repr, DecidableEq

/-- Opaque entry identifiers (uuid in the schema, modelled as Nat). -/
abbrev EntryId := Nat

/-- One row of the `file_system_entries` table, with the columns of the
schema: id, name, path, size_bytes, mime_type, storage_url, owner_id,
parent_id, is_folder, is_starred, is_deleted, created_at, updated_at. -/
structure Entry where
  id : EntryId
  name : String
  path : String
  size_bytes : Int
  mime_type : String
  storage_url : String
  owner_id : String
  parent_id : Option EntryId
  is_folder : Bool
  is_starred : Bool
  is_deleted : Bool
  created_at : Nat
  updated_at : Nat
deriving Repr, DecidableEq

/-- The persistent state seen by the Entry Store: the table rows, the
id generator and the current time used for the audit timestamps. -/
structure Store where
  entries : List Entry
  nextId : EntryId
  clock : Nat
deriving Repr, DecidableEq

/-- Row lookup by primary key. -/
def findEntry (s : Store) (i : EntryId) : Option Entry :=
  s.entries.find? (fun e => e.id == i)

/-- Modelled from the spec: the bounded depth used by `ancestorsOf`
("exceeds a bounded depth (guards against pathological chains)"). -/
def maxDepth : Nat := 64

/-- Modelled from the spec: the ancestor walk of the Path Resolver.
Walks `parent_id` links until null, accumulating entries root-first;
fails with `CycleDetected` if it revisits a previously seen id or
exceeds the bounded depth.  `seen` holds the already visited ids. -/
def ancWalk (s : Store) : Nat → List EntryId → Option EntryId → Except FsError (List Entry)
  | _, _, none => .ok []
  | 0, _, some _ => .error .CycleDetected
  | fuel + 1, seen, some i =>
    if i ∈ seen then .error .CycleDetected
    else
      match findEntry s i with
      | none => .ok []
      | some p =>
        match ancWalk s fuel (i :: seen) p.parent_id with
        | .error err => .error err
        | .ok rest => .ok (rest ++ [p])

/-- Modelled from the spec: `ancestorsOf(id)`, the ordered sequence of
strict ancestors of `id`, root-first.  The Entry Store is missing from
the source tree; this follows §4.2 of the specification. -/
def ancestorsOf (s : Store) (i : EntryId) : Except FsError (List Entry) :=
  match findEntry s i with
  | none => .error .NotFound
  | some e => ancWalk s maxDepth [i] e.parent_id

/-- Modelled from the spec: `resolvePath` of the Path Resolver —
concatenates the ancestor names from the root, each preceded by the
path separator, followed by the entry's own name. -/
def mkPath (ancNames : List String) (name : String) : String :=
  match ancNames with
  | [] => "/" ++ name
  | a :: rest => "/" ++ a ++ mkPath rest name

/-- Pointwise modification applied to the single row with id `i`. -/
def rowMod (i : EntryId) (f : Entry → Entry) (e : Entry) : Entry :=
  if e.id == i then f e else e

/-- Replace the fields of the row with the given id. -/
def updateRow (s : Store) (i : EntryId) (f : Entry → Entry) : Store :=
  { s with entries := s.entries.map (rowMod i f) }

/-- Row update used by `rename`: the display name changes. -/
def setName (newName : String) (f : Entry) : Entry := { f with name := newName }

/-- Row update used by `move`: the parent link changes. -/
def setParent (p : Option EntryId) (f : Entry) : Entry := { f with parent_id := p }

/-- Row update used by `restore`: the soft-delete flag is cleared. -/
def setDeleted (b : Bool) (now : Nat) (f : Entry) : Entry :=
  { f with is_deleted := b, updated_at := now }

/-- Row update used by `star`. -/
def setStarred (b : Bool) (now : Nat) (f : Entry) : Entry :=
  { f with is_starred := b, updated_at := now }

/-- Subtree update used by the path cascade of `rename` and `move`:
the materialized path is recomputed from the row's ancestor chain. -/
def pathUpd (now : Nat) (f : Entry) (anc : List Entry) : Entry :=
  { f with path := mkPath (anc.map (·.name)) f.name, updated_at := now }

/-- Subtree update used by `softDelete`: the whole subtree is marked
deleted. -/
def delUpd (now : Nat) (f : Entry) (_ : List Entry) : Entry :=
  { f with is_deleted := true, updated_at := now }

/-- Modelled from the spec: the atomic "update all descendants"
primitive of the persistence backend, walking every row's ancestor
chain in `s` and rewriting the rows whose chain passes through
`rootId` (and the root row itself) with `upd`, which receives the
row's ancestor chain.  Aborts if any ancestor walk fails. -/
def subtreeMap (s : Store) (rootId : EntryId) (upd : Entry → List Entry → Entry) :
    List Entry → Except FsError (List Entry)
  | [] => .ok []
  | e :: rest =>
    match ancWalk s maxDepth [e.id] e.parent_id with
    | .error err => .error err
    | .ok anc =>
      match subtreeMap s rootId upd rest with
      | .error err => .error err
      | .ok rest' =>
        if e.id == rootId || anc.any (fun a => a.id == rootId) then
          .ok (upd e anc :: rest')
        else
          .ok (e :: rest')

/-- The row built by `create` for insertion: fresh id from the
generator, path from the Path Resolver, `size_bytes = 0` and the
`"folder"` mime sentinel for folders, and both timestamps set to the
current time. -/
def newRow (s : Store) (parentId : Option EntryId) (ancNames : List String)
    (name : String) (isFolder : Bool) (ownerId : String) (sizeBytes : Option Nat)
    (mimeType : Option String) (storageUrl : Option String) : Entry :=
  { id := s.nextId
    name := name
    path := mkPath ancNames name
    size_bytes := (if isFolder then 0 else (sizeBytes.getD 0 : Nat) : Int)
    mime_type := if isFolder then "folder" else mimeType.getD ""
    storage_url := storageUrl.getD ""
    owner_id := ownerId
    parent_id := parentId
    is_folder := isFolder
    is_starred := false
    is_deleted := false
    created_at := s.clock
    updated_at := s.clock }

/-- Modelled from the spec: `create(parentId?, name, isFolder, ownerId,
sizeBytes?, mimeType?, storageUrl?)`.  Fails with `InvalidParent` if
`parentId` is set but missing, not owned by `ownerId`, or not a folder;
computes `path` via the Path Resolver before inserting one row with both
timestamps set to the current time.  Folders get `size_bytes = 0` and
the `"folder"` mime sentinel; `size_bytes` is a non-negative integer. -/
def create (s : Store) (parentId : Option EntryId) (name : String) (isFolder : Bool)
    (ownerId : String) (sizeBytes : Option Nat) (mimeType : Option String)
    (storageUrl : Option String) : Except FsError Store :=
  match parentId with
  | none =>
    .ok (insertNew s none [] name isFolder ownerId sizeBytes mimeType storageUrl)
  | some pid =>
    match findEntry s pid with
    | none => .error .InvalidParent
    | some p =>
      if p.owner_id ≠ ownerId ∨ p.is_folder = false then .error .InvalidParent
      else
        match ancWalk s maxDepth [pid] p.parent_id with
        | .error err => .error err
        | .ok anc =>
          .ok (insertNew s (some pid) ((anc ++ [p]).map (·.name)) name isFolder
                ownerId sizeBytes mimeType storageUrl)
where
  /-- Inserts the freshly built row and advances the id generator and
  the clock. -/
  insertNew (s : Store) (parentId : Option EntryId) (ancNames : List String)
      (name : String) (isFolder : Bool) (ownerId : String) (sizeBytes : Option Nat)
      (mimeType : Option String) (storageUrl : Option String) : Store :=
    { entries := s.entries ++
        [newRow s parentId ancNames name isFolder ownerId sizeBytes mimeType
          storageUrl]
      nextId := s.nextId + 1
      clock := s.clock + 1 }

/-- Modelled from the spec: `rename(id, newName, actorId)`.  Fails with
`NotFound` if no such entry or not owned by `actorId` (merged
deliberately), with `InvalidName` if `newName` is empty; otherwise
recomputes `path` for this entry and all descendants. -/
def rename (s : Store) (i : EntryId) (newName : String) (actorId : String) :
    Except FsError Store :=
  match findEntry s i with
  | none => .error .NotFound
  | some e =>
    if e.owner_id ≠ actorId then .error .NotFound
    else if newName = "" then .error .InvalidName
    else
      let s₁ := updateRow s i (setName newName)
      match subtreeMap s₁ i (pathUpd s.clock) s₁.entries with
      | .error err => .error err
      | .ok es => .ok { entries := es, nextId := s.nextId, clock := s.clock + 1 }

/-- Modelled from the spec: `move(id, newParentId?, actorId)`.  Fails
with `NotFound`, `Forbidden` (not owner), `CycleDetected` (newParentId
is id itself or a descendant of id — checked by walking the ancestors
of newParentId up to root and rejecting if id appears) or
`InvalidParent` (target missing, not a folder, or not owned by the
actor).  On success updates `parent_id` and recomputes `path` for the
entry and all descendants. -/
def move (s : Store) (i : EntryId) (newParentId : Option EntryId) (actorId : String) :
    Except FsError Store :=
  match findEntry s i with
  | none => .error .NotFound
  | some e =>
    if e.owner_id ≠ actorId then .error .Forbidden
    else
      match newParentId with
      | none => commitMove s i none
      | some pid =>
        if pid = i then .error .CycleDetected
        else
          match findEntry s pid with
          | none => .error .InvalidParent
          | some p =>
            match ancWalk s maxDepth [pid] p.parent_id with
            | .error err => .error err
            | .ok anc =>
              if anc.any (fun a => a.id == i) then .error .CycleDetected
              else if p.owner_id ≠ actorId ∨ p.is_folder = false then
                .error .InvalidParent
              else commitMove s i (some pid)
where
  /-- Reparents the row and recomputes the paths of the moved subtree. -/
  commitMove (s : Store) (i : EntryId) (newParentId : Option EntryId) :
      Except FsError Store :=
    let s₁ := updateRow s i (setParent newParentId)
    match subtreeMap s₁ i (pathUpd s.clock) s₁.entries with
    | .error err => .error err
    | .ok es => .ok { entries := es, nextId := s.nextId, clock := s.clock + 1 }

/-- Modelled from the spec: `softDelete(id, actorId)`.  Fails with
`NotFound`/`Forbidden`; sets `is_deleted = true` on the entry and
recursively on all descendants, within one transaction. -/
def softDelete (s : Store) (i : EntryId) (actorId : String) : Except FsError Store :=
  match findEntry s i with
  | none => .error .NotFound
  | some e =>
    if e.owner_id ≠ actorId then .error .Forbidden
    else
      match subtreeMap s i (delUpd s.clock) s.entries with
      | .error err => .error err
      | .ok es => .ok { entries := es, nextId := s.nextId, clock := s.clock + 1 }

/-- Modelled from the spec: `restore(id, actorId)`.  Fails with
`NotFound`/`Forbidden`, or `InvalidRestore` if any ancestor is still
`is_deleted`; clears `is_deleted` on the entry only. -/
def restore (s : Store) (i : EntryId) (actorId : String) : Except FsError Store :=
  match findEntry s i with
  | none => .error .NotFound
  | some e =>
    if e.owner_id ≠ actorId then .error .Forbidden
    else
      match ancWalk s maxDepth [i] e.parent_id with
      | .error err => .error err
      | .ok anc =>
        if anc.any (fun a => a.is_deleted) then .error .InvalidRestore
        else
          .ok { entries := (updateRow s i (setDeleted false s.clock)).entries
                nextId := s.nextId
                clock := s.clock + 1 }

/-- Modelled from the spec: `star(id, actorId, starred)`.  Fails with
`NotFound`/`Forbidden`; idempotent on the flag. -/
def star (s : Store) (i : EntryId) (actorId : String) (starred : Bool) :
    Except FsError Store :=
  match findEntry s i with
  | none => .error .NotFound
  | some e =>
    if e.owner_id ≠ actorId then .error .Forbidden
    else
      .ok { entries := (updateRow s i (setStarred starred s.clock)).entries
            nextId := s.nextId
            clock := s.clock + 1 }

/-- Insertion sort step for the deterministic name-ascending listing. -/
def insertByName (e : Entry) : List Entry → List Entry
  | [] => [e]
  | f :: rest => if e.name ≤ f.name then e :: f :: rest else f :: insertByName e rest

/-- Name-ascending sort for the deterministic UI listing. -/
def sortByName : List Entry → List Entry
  | [] => []
  | e :: rest => insertByName e (sortByName rest)

/-- Modelled from the spec: `listChildren(parentId?, ownerId,
includeDeleted=false)` — immediate children only, excluding deleted
entries unless `includeDeleted`, ordered by name ascending. -/
def listChildren (s : Store) (parentId : Option EntryId) (ownerId : String)
    (includeDeleted : Bool) : List Entry :=
  sortByName (s.entries.filter (fun e =>
    e.parent_id == parentId && e.owner_id == ownerId && (includeDeleted || !e.is_deleted)))

/-- Modelled from the spec: `get(id, ownerId)` — none if not found or
not owned (merged deliberately so existence is never leaked across
owners), and none for a deleted entry unless `includeDeleted`. -/
def get (s : Store) (i : EntryId) (ownerId : String) (includeDeleted : Bool) :
    Option Entry :=
  match findEntry s i with
  | none => none
  | some e =>
    if e.owner_id ≠ ownerId then none
    else if e.is_deleted && !includeDeleted then none
    else some e

/-- The operations of the Entry Store, as one request type. -/
inductive Op where
  | create (parentId : Option EntryId) (name : String) (isFolder : Bool)
      (ownerId : String) (sizeBytes : Option Nat) (mimeType : Option String)
      (storageUrl : Option String)
  | rename (i : EntryId) (newName : String) (actorId : String)
  | move (i : EntryId) (newParentId : Option EntryId) (actorId : String)
  | softDelete (i : EntryId) (actorId : String)
  | restore (i : EntryId) (actorId : String)
  | star (i : EntryId) (actorId : String) (starred : Bool)
deriving Repr, DecidableEq

/-- Dispatch of one Entry Store request. -/
def applyOp (s : Store) : Op → Except FsError Store
  | .create parentId name isFolder ownerId sizeBytes mimeType storageUrl =>
    create s parentId name isFolder ownerId sizeBytes mimeType storageUrl
  | .rename i newName actorId => rename s i newName actorId
  | .move i newParentId actorId => move s i newParentId actorId
  | .softDelete i actorId => softDelete s i actorId
  | .restore i actorId => restore s i actorId
  | .star i actorId starred => star s i actorId starred

/-- The id of the existing entry an operation targets, if any. -/
def Op.target : Op → Option EntryId
  | .create .. => none
  | .rename i _ _ => some i
  | .move i _ _ => some i
  | .softDelete i _ => some i
  | .restore i _ => some i
  | .star i _ _ => some i

/-- The empty store, before any operation. -/
def emptyStore : Store := { entries := [], nextId := 0, clock := 0 }

/-- States reachable from the empty store by successful operations. -/
inductive Reachable : Store → Prop
  | init : Reachable emptyStore
  | step {s s' : Store} (o : Op) : Reachable s → applyOp s o = .ok s' → Reachable s'

/-- `IsAncestor s a b`: following `parent_id` links upward from entry
`b` of the store reaches `a` — equivalently, `b` is a descendant of
`a` through the stored links. -/
inductive IsAncestor (s : Store) : EntryId → EntryId → Prop
  | parent {e : Entry} {a : EntryId} :
      e ∈ s.entries → e.parent_id = some a → IsAncestor s a e.id
  | step {e : Entry} {a b : EntryId} :
      e ∈ s.entries → e.parent_id = some b → IsAncestor s a b → IsAncestor s a e.id

/-- The shape of an insert into `file_system_entries`, from the Drizzle
schema: `id`, the three boolean flags and the timestamps may be
omitted, in which case the column defaults of the schema apply. -/
structure NewFileSystemEntry where
  id : Option EntryId := none
  name : String
  path : String
  size_bytes : Int
  mime_type : String
  storage_url : String
  owner_id : String
  parent_id : Option EntryId := none
  is_folder : Option Bool := none
  is_starred : Option Bool := none
  is_deleted : Option Bool := none
  created_at : Option Nat := none
  updated_at : Option Nat := none
deriving Repr, DecidableEq

/-- Application of the schema's column defaults at insert time:
`id` defaults to a freshly generated identifier, `is_folder`,
`is_starred` and `is_deleted` default to `false`, and the timestamps
default to the current time, exactly as in the table definition. -/
def insertRow (generatedId : EntryId) (now : Nat) (v : NewFileSystemEntry) : Entry :=
  { id := v.id.getD generatedId
    name := v.name
    path := v.path
    size_bytes := v.size_bytes
    mime_type := v.mime_type
    storage_url := v.storage_url
    owner_id := v.owner_id
    parent_id := v.parent_id
    is_folder := v.is_folder.getD false
    is_starred := v.is_starred.getD false
    is_deleted := v.is_deleted.getD false
    created_at := v.created_at.getD now
    updated_at := v.updated_at.getD now }

/-- A store with the row of the given id removed — the hypothetical
run in which the entry never existed, used to compare observable
outcomes across owners. -/
def removeEntry (s : Store) (i : EntryId) : Store :=
  { s with entries := s.entries.filter (fun e => !(e.id == i)) }

/-! ### Basic facts about row lookup -/

theorem findEntry_eq_some {s : Store} {i : EntryId} {e : Entry}
    (h : findEntry s i = some e) : e ∈ s.entries ∧ e.id = i := by
  refine ⟨List.mem_of_find?_eq_some h, ?_⟩
  have hp := List.find?_some h
  simpa using hp

theorem find?_id_of_mem : ∀ {l : List Entry}, (l.map (·.id)).Nodup →
    ∀ {e : Entry}, e ∈ l → l.find? (fun f => f.id == e.id) = some e := by
  intro l
  induction l with
  | nil => intro _ e he; cases he
  | cons f rest ih =>
    intro nd e he
    rw [List.map_cons, List.nodup_cons] at nd
    rcases List.mem_cons.mp he with rfl | hmem
    · simp [List.find?]
    · have hne : (f.id == e.id) = false := by
        apply beq_eq_false_iff_ne.mpr
        intro hEq
        exact nd.1 (hEq ▸ List.mem_map_of_mem (·.id) hmem)
      simp only [List.find?, hne]
      exact ih nd.2 hmem

theorem findEntry_of_mem {s : Store} (nd : (s.entries.map (·.id)).Nodup)
    {e : Entry} (he : e ∈ s.entries) : findEntry s e.id = some e :=
  find?_id_of_mem nd he

theorem findEntry_unique {s : Store} (nd : (s.entries.map (·.id)).Nodup)
    {e p : Entry} (he : e ∈ s.entries) (hp : findEntry s e.id = some p) : e = p := by
  have := findEntry_of_mem nd he
  rw [this] at hp
  exact Option.some.inj hp

theorem findEntry_removeEntry_self (s : Store) (i : EntryId) :
    findEntry (removeEntry s i) i = none := by
  unfold findEntry removeEntry
  simp only
  induction s.entries with
  | nil => rfl
  | cons f rest ih =>
    by_cases h : f.id = i
    · simp only [List.filter, h]
      simp
    · have hb : (f.id == i) = false := beq_eq_false_iff_ne.mpr h
      simp only [List.filter, hb]
      simp only [List.find?, hb]
      exact ih

/-! ### Basic facts about the ancestor walk -/

theorem ancWalk_error {s : Store} : ∀ (fuel : Nat) (seen : List EntryId)
    (q : Option EntryId) (err : FsError), ancWalk s fuel seen q = .error err →
    err = .CycleDetected := by
  intro fuel
  induction fuel with
  | zero =>
    intro seen q err h
    cases q with
    | none => simp [ancWalk] at h
    | some i =>
      rw [ancWalk] at h
      exact (Except.error.inj h).symm
  | succ fuel ih =>
    intro seen q err h
    cases q with
    | none => simp [ancWalk] at h
    | some i =>
      rw [ancWalk] at h
      by_cases hs : i ∈ seen
      · rw [if_pos hs] at h
        exact (Except.error.inj h).symm
      · rw [if_neg hs] at h
        split at h
        · cases h
        · split at h
          · rename_i e₂ hr
            exact (Except.error.inj h) ▸ ih _ _ _ hr
          · cases h

theorem ancWalk_ok_spec {s : Store} : ∀ (fuel : Nat) (seen : List EntryId)
    (q : Option EntryId) (l : List Entry), ancWalk s fuel seen q = .ok l →
    (l.map (·.id)).Nodup ∧ (∀ x ∈ seen, x ∉ l.map (·.id)) ∧ l.length ≤ fuel ∧
      ∀ e ∈ l, findEntry s e.id = some e := by
  intro fuel
  induction fuel with
  | zero =>
    intro seen q l h
    cases q with
    | none =>
      rw [ancWalk] at h
      cases h
      simp
    | some i => rw [ancWalk] at h; cases h
  | succ fuel ih =>
    intro seen q l h
    cases q with
    | none =>
      rw [ancWalk] at h
      cases h
      simp
    | some i =>
      rw [ancWalk] at h
      by_cases hs : i ∈ seen
      · rw [if_pos hs] at h; cases h
      · rw [if_neg hs] at h
        split at h
        · rename_i hf
          cases h
          simp
        · rename_i p hf
          split at h
          · cases h
          · rename_i rest hr
            cases h
            obtain ⟨hnd, hseen, hlen, hfind⟩ := ih (i :: seen) p.parent_id rest hr
            have hpid : p.id = i := (findEntry_eq_some hf).2
            have hi_not : i ∉ rest.map (·.id) := hseen i (List.mem_cons_self i _)
            refine ⟨?_, ?_, ?_, ?_⟩
            · rw [List.map_append]
              simp only [List.map_cons, List.map_nil]
              rw [List.nodup_append]
              refine ⟨hnd, List.nodup_singleton _, ?_⟩
              intro x hx
              simp only [List.mem_singleton]
              intro hx1
              exact hi_not (by rwa [hx1, hpid] at hx)
            · intro x hx
              rw [List.map_append]
              simp only [List.map_cons, List.map_nil]
              rw [List.mem_append]
              rintro (hmem | hmem)
              · exact hseen x (List.mem_cons_of_mem _ hx) hmem
              · rw [List.mem_singleton] at hmem
                rw [hmem, hpid] at hx
                exact hs hx
            · rw [List.length_append]
              simpa using Nat.add_le_add hlen (Nat.le_refl 1)
            · intro e he
              rcases List.mem_append.mp he with hmem | hmem
              · exact hfind e hmem
              · rw [List.mem_singleton] at hmem
                rw [hmem, hpid]
                exact hf

theorem ancWalk_sound {s : Store} : ∀ (fuel : Nat) (seen : List EntryId)
    (q : EntryId) (l : List Entry), ancWalk s fuel seen (some q) = .ok l →
    ∀ x ∈ l, x.id = q ∨ IsAncestor s x.id q := by
  intro fuel
  induction fuel with
  | zero => intro seen q l h; rw [ancWalk] at h; cases h
  | succ fuel ih =>
    intro seen q l h
    rw [ancWalk] at h
    by_cases hs : q ∈ seen
    · rw [if_pos hs] at h; cases h
    · rw [if_neg hs] at h
      split at h
      · rename_i hf
        cases h
        intro x hx
        cases hx
      · rename_i p hf
        split at h
        · cases h
        · rename_i rest hr
          cases h
          obtain ⟨hpmem, hpid⟩ := findEntry_eq_some hf
          intro x hx
          rcases List.mem_append.mp hx with hmem | hmem
          · cases hc : p.parent_id with
            | none =>
              rw [hc, ancWalk] at hr
              cases hr
              cases hmem
            | some c =>
              rw [hc] at hr
              rcases ih _ c rest hr x hmem with hxc | hxc
              · right
                rw [← hpid]
                exact hxc ▸ IsAncestor.parent hpmem hc
              · right
                rw [← hpid]
                exact IsAncestor.step hpmem hc hxc
          · rw [List.mem_singleton] at hmem
            left
            rw [hmem]
            exact hpid

/-! ### The ancestor relation -/

theorem IsAncestor.inv {s : Store} {a b : EntryId} (h : IsAncestor s a b) :
    ∃ e ∈ s.entries, e.id = b ∧ ∃ c, e.parent_id = some c ∧
      (a = c ∨ IsAncestor s a c) := by
  cases h with
  | parent hmem hp => exact ⟨_, hmem, rfl, _, hp, Or.inl rfl⟩
  | step hmem hp hanc => exact ⟨_, hmem, rfl, _, hp, Or.inr hanc⟩

theorem IsAncestor.trans {s : Store} {a b c : EntryId}
    (h₁ : IsAncestor s a b) (h₂ : IsAncestor s b c) : IsAncestor s a c := by
  induction h₂ with
  | parent hmem hp => exact IsAncestor.step hmem hp h₁
  | step hmem hp _ hih => exact IsAncestor.step hmem hp (hih h₁)

theorem ancWalk_complete {s : Store} (nd : (s.entries.map (·.id)).Nodup) :
    ∀ (fuel : Nat) (seen : List EntryId) (q : EntryId) (l : List Entry),
      ancWalk s fuel seen (some q) = .ok l →
      ∀ (a : EntryId) (pa : Entry), findEntry s a = some pa →
        (a = q ∨ IsAncestor s a q) → pa ∈ l := by
  intro fuel
  induction fuel with
  | zero => intro seen q l h; rw [ancWalk] at h; cases h
  | succ fuel ih =>
    intro seen q l h a pa hpa hq
    rw [ancWalk] at h
    by_cases hs : q ∈ seen
    · rw [if_pos hs] at h; cases h
    · rw [if_neg hs] at h
      split at h
      · rename_i hf
        exfalso
        rcases hq with rfl | hanc
        · rw [hpa] at hf; cases hf
        · obtain ⟨e, hmem, rfl, _⟩ := hanc.inv
          rw [findEntry_of_mem nd hmem] at hf
          cases hf
      · rename_i p hf
        split at h
        · cases h
        · rename_i rest hr
          cases h
          rcases hq with rfl | hanc
          · rw [hpa] at hf
            cases hf
            exact List.mem_append.mpr (Or.inr (List.mem_singleton.mpr rfl))
          · obtain ⟨e, hmem, rfl, c, hc, hac⟩ := hanc.inv
            have hep : e = p := findEntry_unique nd hmem hf
            subst hep
            rw [hc] at hr
            exact List.mem_append.mpr (Or.inl (ih _ c rest hr a pa hpa hac))

/-! ### Store invariants -/

/-- Primary keys are unique. -/
def UniqueIds (s : Store) : Prop := (s.entries.map (·.id)).Nodup

/-- Checker for invariant 2 at one row: a set `parent_id` references an
existing row that is a folder with the same owner. -/
def parentOkB (s : Store) (e : Entry) : Bool :=
  match e.parent_id with
  | none => true
  | some pid =>
    match findEntry s pid with
    | none => false
    | some p => p.is_folder && p.owner_id == e.owner_id

/-- Invariant 2 of the spec, table-wide. -/
def ParentOk (s : Store) : Prop := ∀ e ∈ s.entries, parentOkB s e = true

/-- Checker: the defensive ancestor walk of one row succeeds. -/
def walkOk (s : Store) (e : Entry) : Bool :=
  match ancWalk s maxDepth [e.id] e.parent_id with
  | .ok _ => true
  | .error _ => false

/-- Invariant 1 of the spec: every row's ancestor chain walks to the
root without revisiting an id and within the depth bound. -/
def AcyclicOk (s : Store) : Prop := ∀ e ∈ s.entries, walkOk s e = true

/-- The id generator dominates every stored id. -/
def FreshIds (s : Store) : Prop := ∀ e ∈ s.entries, e.id < s.nextId

/-- Well-formedness maintained by the Entry Store across operations. -/
def WF (s : Store) : Prop := UniqueIds s ∧ ParentOk s ∧ AcyclicOk s ∧ FreshIds s

theorem parentOk_spec {s : Store} (hp : ParentOk s) {e : Entry} (he : e ∈ s.entries)
    {pid : EntryId} (hpid : e.parent_id = some pid) :
    ∃ p, findEntry s pid = some p ∧ p.is_folder = true ∧ p.owner_id = e.owner_id := by
  have hb := hp e he
  unfold parentOkB at hb
  split at hb
  · rename_i hnone
    rw [hpid] at hnone
    cases hnone
  · rename_i pid₂ hsome
    rw [hpid] at hsome
    cases hsome
    split at hb
    · cases hb
    · rename_i p hf
      exact ⟨p, hf, ((Bool.and_eq_true _ _).mp hb).1,
        eq_of_beq ((Bool.and_eq_true _ _).mp hb).2⟩

theorem acyclic_spec {s : Store} (ha : AcyclicOk s) {e : Entry} (he : e ∈ s.entries) :
    ∃ l, ancWalk s maxDepth [e.id] e.parent_id = .ok l := by
  have hb := ha e he
  unfold walkOk at hb
  split at hb
  · rename_i l hl
    exact ⟨l, hl⟩
  · cases hb

/-- Along a valid parent chain, ownership is constant (invariant 6). -/
theorem ancestor_owner {s : Store} (nd : UniqueIds s) (hp : ParentOk s)
    {a b : EntryId} (h : IsAncestor s a b) :
    ∀ {ea eb : Entry}, findEntry s a = some ea → findEntry s b = some eb →
      ea.owner_id = eb.owner_id := by
  induction h with
  | parent hmem hpar =>
    intro ea eb hfa hfb
    rename_i e _
    have heb : e = eb := findEntry_unique nd hmem hfb
    obtain ⟨p, hfp, _, hpo⟩ := parentOk_spec hp hmem hpar
    rw [hfa] at hfp
    rw [← heb, Option.some.inj hfp]
    exact hpo
  | step hmem hpar _ ih =>
    intro ea eb hfa hfb
    rename_i e _ _ _
    have heb : e = eb := findEntry_unique nd hmem hfb
    obtain ⟨p, hfp, _, hpo⟩ := parentOk_spec hp hmem hpar
    rw [ih hfa hfp, hpo, ← heb]

/-- Claim C3: for every entry, `ancestorsOf` terminates and never
revisits an id during its walk of `parent_id` links (the result ids
are distinct, the start id never reappears, and the length respects
the depth bound), it only ever fails with `NotFound` (absent id) or
`CycleDetected`, and if the stored links form a cycle through the id
it fails with `CycleDetected` rather than looping. -/
theorem ancestorsOf_safety (s : Store) (i : EntryId) :
    (∀ l, ancestorsOf s i = .ok l →
      (l.map (·.id)).Nodup ∧ i ∉ l.map (·.id) ∧ l.length ≤ maxDepth) ∧
    (∀ err, ancestorsOf s i = .error err →
      err = .NotFound ∨ err = .CycleDetected) ∧
    (UniqueIds s → IsAncestor s i i → ancestorsOf s i = .error .CycleDetected) := by
  refine ⟨?_, ?_, ?_⟩
  · intro l h
    unfold ancestorsOf at h
    split at h
    · cases h
    · rename_i e hf
      obtain ⟨hnd, hseen, hlen, _⟩ := ancWalk_ok_spec maxDepth [i] e.parent_id l h
      exact ⟨hnd, hseen i (List.mem_singleton.mpr rfl), hlen⟩
  · intro err h
    unfold ancestorsOf at h
    split at h
    · exact Or.inl (Except.error.inj h).symm
    · rename_i e hf
      exact Or.inr (ancWalk_error maxDepth [i] e.parent_id err h)
  · intro nd hcyc
    obtain ⟨e, hmem, rfl, _⟩ := hcyc.inv
    have hf : findEntry s e.id = some e := findEntry_of_mem nd hmem
    unfold ancestorsOf
    rw [hf]
    show ancWalk s maxDepth [e.id] e.parent_id = Except.error FsError.CycleDetected
    cases hw : ancWalk s maxDepth [e.id] e.parent_id with
    | error err =>
      rw [ancWalk_error maxDepth [e.id] e.parent_id err hw]
    | ok l =>
      exfalso
      obtain ⟨_, hseen, _, _⟩ := ancWalk_ok_spec maxDepth [e.id] e.parent_id l hw
      cases hc : e.parent_id with
      | none =>
        obtain ⟨e', hmem', hid', c, hc', _⟩ := hcyc.inv
        have he' : e' = e := by
          have hx := findEntry_of_mem nd hmem'
          rw [hid', hf] at hx
          exact (Option.some.inj hx).symm
        rw [he', hc] at hc'
        cases hc'
      | some c =>
        rw [hc] at hw
        have hin : e ∈ l :=
          ancWalk_complete nd maxDepth [e.id] c l hw e.id e hf
            (by
              obtain ⟨e', hmem', hid', c', hc', hd⟩ := hcyc.inv
              have he' : e' = e := by
                have hx := findEntry_of_mem nd hmem'
                rw [hid', hf] at hx
                exact (Option.some.inj hx).symm
              subst he'
              rw [hc] at hc'
              cases hc'
              exact hd)
        exact hseen e.id (List.mem_singleton.mpr rfl) (List.mem_map_of_mem (·.id) hin)

/-- A store whose two rows form a `parent_id` cycle (corrupted data,
never reachable, used to exercise the defensive check). -/
def cycEntryA : Entry :=
  { id := 0, name := "a", path := "/a", size_bytes := 0, mime_type := "folder",
    storage_url := "", owner_id := "u", parent_id := some 1, is_folder := true,
    is_starred := false, is_deleted := false, created_at := 0, updated_at := 0 }

/-- Second row of the cyclic example store. -/
def cycEntryB : Entry :=
  { cycEntryA with id := 1, name := "b", path := "/b", parent_id := some 0 }

/-- The cyclic example store. -/
def cyclicStore : Store := { entries := [cycEntryA, cycEntryB], nextId := 2, clock := 0 }

/-- Witness for C3: on the concrete cyclic store the walk reports
`CycleDetected` instead of diverging. -/
theorem ancestorsOf_safety_witness :
    ancestorsOf cyclicStore 0 = .error .CycleDetected := by
  have h01 : IsAncestor cyclicStore 0 1 :=
    IsAncestor.parent (e := cycEntryB) (List.Mem.tail _ (List.Mem.head _)) rfl
  have h00 : IsAncestor cyclicStore 0 0 :=
    IsAncestor.step (e := cycEntryA) (List.Mem.head _) rfl h01
  exact (ancestorsOf_safety cyclicStore 0).2.2 (by unfold UniqueIds; decide) h00

/-- Claim C9: `get` and `rename` return the same `NotFound` outcome
whether the id is absent or owned by a different user: on a store
holding another owner's entry under the id and on the store with that
entry removed, both produce identical results for the non-owner, so
existence is never leaked across owners. -/
theorem get_rename_never_leak (s : Store) (i : EntryId) (actor : String) (e : Entry)
    (he : findEntry s i = some e) (hown : e.owner_id ≠ actor) :
    (∀ includeDeleted, get s i actor includeDeleted = none ∧
        get (removeEntry s i) i actor includeDeleted = none) ∧
    (∀ newName, rename s i newName actor = .error .NotFound ∧
        rename (removeEntry s i) i newName actor = .error .NotFound) := by
  refine ⟨fun incl => ⟨?_, ?_⟩, fun n => ⟨?_, ?_⟩⟩
  · simp [get, he, hown]
  · simp [get, findEntry_removeEntry_self]
  · simp [rename, he, hown]
  · simp [rename, findEntry_removeEntry_self]

/-- Witness for C9 on a concrete store: the other owner's folder is
invisible to the actor, with and without the row present. -/
theorem get_rename_never_leak_witness :
    (get cyclicStore 0 "v" false = none ∧
      get (removeEntry cyclicStore 0) 0 "v" false = none) ∧
    (rename cyclicStore 0 "X" "v" = .error .NotFound ∧
      rename (removeEntry cyclicStore 0) 0 "X" "v" = .error .NotFound) := by
  have h := get_rename_never_leak cyclicStore 0 "v" cycEntryA (by decide) (by decide)
  exact ⟨h.1 false, h.2 "X"⟩

/-- Claim C10: a freshly inserted row that does not supply the
`is_folder`, `is_starred` or `is_deleted` columns receives `false` for
each of them from the schema defaults — a non-starred, non-deleted
file — and its id is the auto-generated one when no id is supplied. -/
theorem insert_defaults (gid : EntryId) (now : Nat) (v : NewFileSystemEntry)
    (hid : v.id = none) (hf : v.is_folder = none) (hs : v.is_starred = none)
    (hd : v.is_deleted = none) :
    (insertRow gid now v).id = gid ∧ (insertRow gid now v).is_folder = false ∧
      (insertRow gid now v).is_starred = false ∧
      (insertRow gid now v).is_deleted = false := by
  simp [insertRow, hid, hf, hs, hd]

/-- A concrete insert payload supplying only the required columns. -/
def sampleInsert : NewFileSystemEntry :=
  { name := "f", path := "/f", size_bytes := 1, mime_type := "text/plain",
    storage_url := "u", owner_id := "o" }

/-- Witness for C10 on a concrete insert. -/
theorem insert_defaults_witness :
    (insertRow 7 3 sampleInsert).id = 7 ∧
    (insertRow 7 3 sampleInsert).is_folder = false ∧
    (insertRow 7 3 sampleInsert).is_starred = false ∧
    (insertRow 7 3 sampleInsert).is_deleted = false :=
  insert_defaults 7 3 sampleInsert rfl rfl rfl rfl

/-! ### Characterization of the subtree update primitive -/

/-- The row transformation realized by `subtreeMap` when it succeeds. -/
def subtreeUpd (s : Store) (rootId : EntryId) (upd : Entry → List Entry → Entry)
    (e : Entry) : Entry :=
  match ancWalk s maxDepth [e.id] e.parent_id with
  | .error _ => e
  | .ok anc =>
    if e.id == rootId || anc.any (fun a => a.id == rootId) then upd e anc else e

theorem subtreeMap_ok {s : Store} {rootId : EntryId} {upd : Entry → List Entry → Entry} :
    ∀ {l es : List Entry}, subtreeMap s rootId upd l = .ok es →
      es = l.map (subtreeUpd s rootId upd) := by
  intro l
  induction l with
  | nil =>
    intro es h
    rw [subtreeMap] at h
    cases h
    rfl
  | cons e rest ih =>
    intro es h
    rw [subtreeMap] at h
    split at h
    · cases h
    · rename_i anc hw
      split at h
      · cases h
      · rename_i rest' hr
        have hupd : subtreeUpd s rootId upd e =
            if e.id == rootId || anc.any (fun a => a.id == rootId) then upd e anc
            else e := by
          unfold subtreeUpd
          rw [hw]
        split at h
        · rename_i hcond
          cases h
          rw [List.map_cons, ih hr, hupd, if_pos hcond]
        · rename_i hcond
          cases h
          rw [List.map_cons, ih hr, hupd, if_neg hcond]

theorem subtreeMap_isOk {s : Store} {rootId : EntryId} {upd : Entry → List Entry → Entry} :
    ∀ {l : List Entry},
      (∀ e ∈ l, ∃ anc, ancWalk s maxDepth [e.id] e.parent_id = .ok anc) →
      ∃ es, subtreeMap s rootId upd l = .ok es := by
  intro l
  induction l with
  | nil => intro _; exact ⟨[], rfl⟩
  | cons e rest ih =>
    intro hall
    obtain ⟨anc, hw⟩ := hall e (List.mem_cons_self e rest)
    obtain ⟨es, hes⟩ := ih (fun f hf => hall f (List.mem_cons_of_mem e hf))
    by_cases hcond : (e.id == rootId || anc.any (fun a => a.id == rootId)) = true
    · exact ⟨upd e anc :: es, by simp only [subtreeMap, hw, hes]; rw [if_pos hcond]⟩
    · exact ⟨e :: es, by simp only [subtreeMap, hw, hes]; rw [if_neg hcond]⟩

theorem subtreeMap_ok_walks {s : Store} {rootId : EntryId}
    {upd : Entry → List Entry → Entry} :
    ∀ {l es : List Entry}, subtreeMap s rootId upd l = .ok es →
      ∀ e ∈ l, ∃ anc, ancWalk s maxDepth [e.id] e.parent_id = .ok anc := by
  intro l
  induction l with
  | nil => intro es _ e he; cases he
  | cons f rest ih =>
    intro es h e he
    rw [subtreeMap] at h
    split at h
    · cases h
    · rename_i anc hw
      split at h
      · cases h
      · rename_i rest' hr
        rcases List.mem_cons.mp he with rfl | hmem
        · exact ⟨anc, hw⟩
        · exact ih hr e hmem

/-! ### Stability of lookup and walk under row-preserving maps -/

theorem findEntry_map_entries {g : Entry → Entry} (hid : ∀ e, (g e).id = e.id)
    (s : Store) (n : EntryId) (c : Nat) (x : EntryId) :
    findEntry { entries := s.entries.map g, nextId := n, clock := c } x =
      (findEntry s x).map g := by
  unfold findEntry
  simp only
  rw [List.find?_map g s.entries]
  have hpg : ((fun e => e.id == x) ∘ g) = (fun e => e.id == x) := by
    funext e
    simp [hid e]
  rw [hpg]

theorem ancWalk_map {s s₂ : Store} {g : Entry → Entry}
    (hpar : ∀ e, (g e).parent_id = e.parent_id)
    (hfind : ∀ x, findEntry s₂ x = (findEntry s x).map g) :
    ∀ (fuel : Nat) (seen : List EntryId) (q : Option EntryId),
      ancWalk s₂ fuel seen q = (ancWalk s fuel seen q).map (List.map g) := by
  intro fuel
  induction fuel with
  | zero =>
    intro seen q
    cases q with
    | none => rfl
    | some i => rfl
  | succ fuel ih =>
    intro seen q
    cases q with
    | none => rfl
    | some i =>
      by_cases hs : i ∈ seen
      · rw [ancWalk, ancWalk, if_pos hs, if_pos hs]
        rfl
      · cases hf : findEntry s i with
        | none =>
          have hL : ancWalk s₂ (fuel + 1) seen (some i) = .ok [] := by
            rw [ancWalk, if_neg hs, hfind i, hf]
            rfl
          have hR : ancWalk s (fuel + 1) seen (some i) = .ok [] := by
            rw [ancWalk, if_neg hs, hf]
          rw [hL, hR]
          rfl
        | some p =>
          have hL : ancWalk s₂ (fuel + 1) seen (some i) =
              match ancWalk s₂ fuel (i :: seen) (g p).parent_id with
              | .error err => .error err
              | .ok rest => .ok (rest ++ [g p]) := by
            rw [ancWalk, if_neg hs, hfind i, hf]
            rfl
          have hR : ancWalk s (fuel + 1) seen (some i) =
              match ancWalk s fuel (i :: seen) p.parent_id with
              | .error err => .error err
              | .ok rest => .ok (rest ++ [p]) := by
            rw [ancWalk, if_neg hs, hf]
          rw [hL, hR, hpar p, ih (i :: seen) p.parent_id]
          cases ancWalk s fuel (i :: seen) p.parent_id with
          | error err => rfl
          | ok rest => simp [Except.map]

/-! ### Walk membership and the ancestor relation -/

/-- Two rows of a duplicate-free table with the same id are equal. -/
theorem mem_id_unique {s : Store} (nd : UniqueIds s) {e f : Entry}
    (he : e ∈ s.entries) (hf : f ∈ s.entries) (hid : e.id = f.id) : e = f := by
  have h1 := find?_id_of_mem nd he
  have h2 := find?_id_of_mem nd hf
  rw [hid] at h1
  rw [h1] at h2
  exact Option.some.inj h2

/-- Every element of a row's successful ancestor walk is an ancestor
of that row. -/
theorem anc_mem_isAncestor {s : Store} {f : Entry} (hf : f ∈ s.entries)
    {anc : List Entry} (hw : ancWalk s maxDepth [f.id] f.parent_id = .ok anc)
    {x : Entry} (hx : x ∈ anc) : IsAncestor s x.id f.id := by
  cases hc : f.parent_id with
  | none =>
    rw [hc, ancWalk] at hw
    cases hw
    cases hx
  | some c =>
    rw [hc] at hw
    rcases ancWalk_sound maxDepth [f.id] c anc hw x hx with hxc | hxc
    · exact hxc ▸ IsAncestor.parent hf hc
    · exact IsAncestor.step hf hc hxc

/-- Every ancestor of a row appears in the row's successful walk. -/
theorem ancestor_in_walk {s : Store} (nd : UniqueIds s) {i : EntryId} {e : Entry}
    (he : findEntry s i = some e) {anc : List Entry}
    (hw : ancWalk s maxDepth [i] e.parent_id = .ok anc) :
    ∀ (a : EntryId) (ea : Entry), findEntry s a = some ea → IsAncestor s a i →
      ea ∈ anc := by
  intro a ea hfa hanc
  obtain ⟨e₂, hmem₂, hid₂, c, hc, hd⟩ := hanc.inv
  have he₂ : e₂ = e := by
    have hx := findEntry_of_mem nd hmem₂
    rw [hid₂, he] at hx
    exact (Option.some.inj hx).symm
  subst he₂
  rw [hc] at hw
  exact ancWalk_complete nd maxDepth [i] c anc hw a ea hfa hd

/-- The affectedness test of `subtreeMap` holds exactly on the root row
and its descendants. -/
theorem subtree_marks {s : Store} (nd : UniqueIds s) {i : EntryId} {e : Entry}
    (he : findEntry s i = some e) {f : Entry} (hf : f ∈ s.entries)
    (hdesc : f.id = i ∨ IsAncestor s i f.id) {anc : List Entry}
    (hw : ancWalk s maxDepth [f.id] f.parent_id = .ok anc) :
    (f.id == i || anc.any (fun a => a.id == i)) = true := by
  rcases hdesc with rfl | hdesc
  · simp
  · apply Bool.or_eq_true_iff.mpr
    right
    rw [List.any_eq_true]
    refine ⟨e, ?_, by simp [(findEntry_eq_some he).2]⟩
    obtain ⟨f₂, hmem₂, hid₂, c, hc, hd⟩ := hdesc.inv
    have hf₂ : f₂ = f := mem_id_unique nd hmem₂ hf hid₂
    subst hf₂
    rw [hc] at hw
    exact ancWalk_complete nd maxDepth _ c anc hw i e he hd

/-- The affectedness test of `subtreeMap` fails on rows outside the
subtree. -/
theorem subtree_marks_false {s : Store} {i : EntryId} {f : Entry}
    (hf : f ∈ s.entries) (hdesc : ¬(f.id = i ∨ IsAncestor s i f.id))
    {anc : List Entry} (hw : ancWalk s maxDepth [f.id] f.parent_id = .ok anc) :
    (f.id == i || anc.any (fun a => a.id == i)) = false := by
  rw [Bool.or_eq_false_iff]
  constructor
  · exact beq_eq_false_iff_ne.mpr (fun h => hdesc (Or.inl h))
  · rw [List.any_eq_false]
    intro x hx hxi
    have hxid : x.id = i := eq_of_beq hxi
    exact hdesc (Or.inr (hxid ▸ anc_mem_isAncestor hf hw hx))

/-! ### Projection preservation through row updates -/

theorem subtreeUpd_pres {α : Type} (s : Store) (rootId : EntryId)
    (upd : Entry → List Entry → Entry) (P : Entry → α)
    (h : ∀ e anc, P (upd e anc) = P e) (e : Entry) :
    P (subtreeUpd s rootId upd e) = P e := by
  unfold subtreeUpd
  split
  · rfl
  · split
    · apply h
    · rfl

theorem rowMod_pres {α : Type} (i : EntryId) (f : Entry → Entry) (P : Entry → α)
    (h : ∀ e, P (f e) = P e) (e : Entry) : P (rowMod i f e) = P e := by
  unfold rowMod
  split
  · apply h
  · rfl

theorem updateRow_eq (s : Store) (i : EntryId) (f : Entry → Entry) :
    updateRow s i f =
      { entries := s.entries.map (rowMod i f), nextId := s.nextId,
        clock := s.clock } := rfl

/-- Claim C4: for a soft-deleted entry owned by the actor, `restore`
fails with `InvalidRestore` when some ancestor is still deleted (the
failed transaction produces no new state), and otherwise succeeds,
clearing `is_deleted` on that entry only while every other row — in
particular every descendant — is kept unchanged, so a subtree is
restored top-down (parent first, then child). -/
theorem restore_spec (s : Store) (i : EntryId) (actor : String) (e : Entry)
    (nd : UniqueIds s) (ha : AcyclicOk s)
    (he : findEntry s i = some e) (hdel : e.is_deleted = true)
    (hown : e.owner_id = actor) :
    ((∃ a ea, IsAncestor s a i ∧ findEntry s a = some ea ∧ ea.is_deleted = true) →
      restore s i actor = .error .InvalidRestore) ∧
    ((∀ a ea, IsAncestor s a i → findEntry s a = some ea → ea.is_deleted = false) →
      ∃ s', restore s i actor = .ok s' ∧
        (∃ e', findEntry s' i = some e' ∧ e'.is_deleted = false) ∧
        (∀ f ∈ s.entries, f.id ≠ i → f ∈ s'.entries)) := by
  obtain ⟨hmem, hid⟩ := findEntry_eq_some he
  obtain ⟨anc, hw₀⟩ := acyclic_spec ha hmem
  have hw : ancWalk s maxDepth [i] e.parent_id = .ok anc := by rwa [hid] at hw₀
  have hnotne : ¬(e.owner_id ≠ actor) := fun hh => hh hown
  constructor
  · rintro ⟨a, ea, hanc, hfa, hdela⟩
    have hin : ea ∈ anc := ancestor_in_walk nd he hw a ea hfa hanc
    have hany : anc.any (fun x => x.is_deleted) = true :=
      List.any_eq_true.mpr ⟨ea, hin, by simp [hdela]⟩
    simp only [restore, he]
    rw [if_neg hnotne]
    simp only [hw]
    rw [if_pos hany]
  · intro hno
    have hany : anc.any (fun x => x.is_deleted) = false := by
      rw [List.any_eq_false]
      intro x hx hxd
      have hfx : findEntry s x.id = some x :=
        (ancWalk_ok_spec maxDepth [e.id] e.parent_id anc hw₀).2.2.2 x hx
      have hax : IsAncestor s x.id i := hid ▸ anc_mem_isAncestor hmem hw₀ hx
      rw [hno x.id x hax hfx] at hxd
      cases hxd
    have hidp : ∀ f, (rowMod i (setDeleted false s.clock) f).id = f.id :=
      rowMod_pres i (setDeleted false s.clock) (·.id) (fun _ => rfl)
    refine ⟨{ entries := (updateRow s i (setDeleted false s.clock)).entries,
              nextId := s.nextId, clock := s.clock + 1 }, ?_, ?_, ?_⟩
    · simp only [restore, he]
      rw [if_neg hnotne]
      simp only [hw]
      rw [if_neg (by simp [hany])]
    · have hfind := findEntry_map_entries hidp s s.nextId (s.clock + 1) i
      refine ⟨rowMod i (setDeleted false s.clock) e, ?_, ?_⟩
      · rw [show (updateRow s i (setDeleted false s.clock)).entries =
            s.entries.map (rowMod i (setDeleted false s.clock)) from rfl]
        rw [hfind, he]
        rfl
      · unfold rowMod
        rw [if_pos (by simp [hid])]
        rfl
    · intro f hf hne
      rw [show (updateRow s i (setDeleted false s.clock)).entries =
          s.entries.map (rowMod i (setDeleted false s.clock)) from rfl]
      refine List.mem_map.mpr ⟨f, hf, ?_⟩
      unfold rowMod
      rw [if_neg (by simp [hne])]

/-- A deleted parent folder over a deleted child, both owned by "u". -/
def dParent : Entry :=
  { id := 0, name := "p", path := "/p", size_bytes := 0, mime_type := "folder",
    storage_url := "", owner_id := "u", parent_id := none, is_folder := true,
    is_starred := false, is_deleted := true, created_at := 0, updated_at := 0 }

/-- The deleted child folder of `dParent`. -/
def dChild : Entry :=
  { dParent with id := 1, name := "c", path := "/p/c", parent_id := some 0 }

/-- The two-row deleted-subtree store. -/
def dStore : Store := { entries := [dParent, dChild], nextId := 2, clock := 5 }

/-- Witness for C4: restoring the child under a still-deleted parent is
rejected with `InvalidRestore`, while restoring the parent first
succeeds and touches only the parent row. -/
theorem restore_spec_witness :
    restore dStore 1 "u" = .error .InvalidRestore ∧
    (∃ s', restore dStore 0 "u" = .ok s' ∧
      (∃ e', findEntry s' 0 = some e' ∧ e'.is_deleted = false) ∧
      (∀ f ∈ dStore.entries, f.id ≠ 0 → f ∈ s'.entries)) := by
  have nd : UniqueIds dStore := by unfold UniqueIds; decide
  have ha : AcyclicOk dStore := by unfold AcyclicOk; decide
  constructor
  · have hanc : IsAncestor dStore 0 1 :=
      IsAncestor.parent (e := dChild) (List.Mem.tail _ (List.Mem.head _)) rfl
    exact (restore_spec dStore 1 "u" dChild nd ha rfl rfl rfl).1
      ⟨0, dParent, hanc, rfl, rfl⟩
  · refine (restore_spec dStore 0 "u" dParent nd ha rfl rfl rfl).2 ?_
    intro a ea hanc hfa
    have hw : ancWalk dStore maxDepth [0] dParent.parent_id = .ok [] := rfl
    have := ancestor_in_walk nd (i := 0) (e := dParent) rfl hw a ea hfa hanc
    cases this

/-- Claim C2: for a folder entry owned by the actor, `softDelete` sets
`is_deleted = true` on that entry and on all of its descendants; after
it, `listChildren` with `includeDeleted = false` on any node of the
subtree returns the empty sequence, and `get` on any descendant
returns none when `includeDeleted` is false but returns the (now
deleted) record when `includeDeleted` is true. -/
theorem softDelete_spec (s : Store) (i : EntryId) (actor : String) (e : Entry)
    (nd : UniqueIds s) (hp : ParentOk s) (ha : AcyclicOk s)
    (he : findEntry s i = some e) (hfolder : e.is_folder = true)
    (hown : e.owner_id = actor) :
    ∃ s', softDelete s i actor = .ok s' ∧
      (∀ f' ∈ s'.entries, (f'.id = i ∨ IsAncestor s i f'.id) → f'.is_deleted = true) ∧
      (∀ d, (d = i ∨ IsAncestor s i d) → listChildren s' (some d) actor false = []) ∧
      (∀ d ed, IsAncestor s i d → findEntry s d = some ed →
        get s' d actor false = none ∧
        get s' d actor true = some { ed with is_deleted := true,
                                             updated_at := s.clock }) := by
  obtain ⟨hmem, hid⟩ := findEntry_eq_some he
  have hwalks : ∀ f ∈ s.entries,
      ∃ anc, ancWalk s maxDepth [f.id] f.parent_id = .ok anc :=
    fun f hf => acyclic_spec ha hf
  obtain ⟨es, hes⟩ : ∃ es, subtreeMap s i (delUpd s.clock) s.entries = .ok es :=
    subtreeMap_isOk hwalks
  have hmap : es = s.entries.map (subtreeUpd s i (delUpd s.clock)) :=
    subtreeMap_ok hes
  have hnotne : ¬(e.owner_id ≠ actor) := fun hh => hh hown
  have gid : ∀ f, (subtreeUpd s i (delUpd s.clock) f).id = f.id :=
    subtreeUpd_pres s i (delUpd s.clock) (·.id) (fun _ _ => rfl)
  have gpar : ∀ f, (subtreeUpd s i (delUpd s.clock) f).parent_id = f.parent_id :=
    subtreeUpd_pres s i (delUpd s.clock) (·.parent_id) (fun _ _ => rfl)
  have gown : ∀ f, (subtreeUpd s i (delUpd s.clock) f).owner_id = f.owner_id :=
    subtreeUpd_pres s i (delUpd s.clock) (·.owner_id) (fun _ _ => rfl)
  have hdel' : ∀ f ∈ s.entries, (f.id = i ∨ IsAncestor s i f.id) →
      subtreeUpd s i (delUpd s.clock) f = { f with is_deleted := true,
                                                   updated_at := s.clock } := by
    intro f hf hcond
    obtain ⟨anc, hw⟩ := hwalks f hf
    have hmark := subtree_marks nd he hf hcond hw
    unfold subtreeUpd
    simp only [hw]
    rw [if_pos hmark]
    rfl
  refine ⟨{ entries := es, nextId := s.nextId, clock := s.clock + 1 }, ?_, ?_, ?_, ?_⟩
  · simp only [softDelete, he]
    rw [if_neg hnotne]
    simp only [hes]
  · intro f' hf' hcond
    simp only at hf'
    rw [hmap] at hf'
    obtain ⟨f, hf, rfl⟩ := List.mem_map.mp hf'
    rw [gid f] at hcond
    rw [hdel' f hf hcond]
  · intro d hd
    unfold listChildren
    have hfil : (List.filter (fun c => c.parent_id == some d && c.owner_id == actor
        && (false || !c.is_deleted))
        ({ entries := es, nextId := s.nextId, clock := s.clock + 1 } : Store).entries) = [] := by
      rw [List.filter_eq_nil_iff]
      intro c' hc' hpred
      simp only at hc'
      rw [hmap] at hc'
      obtain ⟨c, hc, rfl⟩ := List.mem_map.mp hc'
      simp only [Bool.and_eq_true, beq_iff_eq, Bool.false_or, Bool.not_eq_true'] at hpred
      obtain ⟨⟨hcp, _⟩, hcnd⟩ := hpred
      rw [gpar c] at hcp
      have hDesc : IsAncestor s i c.id := by
        rcases hd with rfl | hd
        · exact IsAncestor.parent hc hcp
        · exact IsAncestor.step hc hcp hd
      rw [hdel' c hc (Or.inr hDesc)] at hcnd
      cases hcnd
    rw [hfil]
    rfl
  · intro d ed hanc hfd
    obtain ⟨hedmem, hedid⟩ := findEntry_eq_some hfd
    have hanc' : IsAncestor s i ed.id := hedid ▸ hanc
    obtain ⟨anc, hw⟩ := hwalks ed hedmem
    have hmark := subtree_marks nd he hedmem (Or.inr hanc') hw
    have hged : subtreeUpd s i (delUpd s.clock) ed =
        { ed with is_deleted := true, updated_at := s.clock } := by
      unfold subtreeUpd
      simp only [hw]
      rw [if_pos hmark]
      rfl
    have hfind : findEntry
        { entries := es, nextId := s.nextId, clock := s.clock + 1 } d =
        some { ed with is_deleted := true, updated_at := s.clock } := by
      rw [show ({ entries := es, nextId := s.nextId, clock := s.clock + 1 } : Store)
          = { entries := s.entries.map (subtreeUpd s i (delUpd s.clock)),
              nextId := s.nextId, clock := s.clock + 1 } by rw [← hmap]]
      rw [findEntry_map_entries gid s s.nextId (s.clock + 1) d, hfd]
      simp only [Option.map]
      rw [hged]
    have hedown : ed.owner_id = actor := by
      rw [← ancestor_owner nd hp hanc he hfd]
      exact hown
    constructor
    · simp [get, hfind, hedown]
    · simp [get, hfind, hedown]

/-- Folder "A", the root of the three-row example store. -/
def tA : Entry :=
  { id := 0, name := "A", path := "/A", size_bytes := 0, mime_type := "folder",
    storage_url := "", owner_id := "u", parent_id := none, is_folder := true,
    is_starred := false, is_deleted := false, created_at := 0, updated_at := 0 }

/-- Folder "B" under "A". -/
def tB : Entry := { tA with id := 1, name := "B", path := "/A/B", parent_id := some 0 }

/-- File "f" under "B". -/
def tF : Entry :=
  { tA with
    id := 2, name := "f", path := "/A/B/f", parent_id := some 1,
    is_folder := false, mime_type := "text/plain", size_bytes := 4,
    storage_url := "url" }

/-- The three-row example store: /A/B/f, all owned by "u". -/
def tStore : Store := { entries := [tA, tB, tF], nextId := 3, clock := 9 }

/-- Witness for C2: soft-deleting the root folder of the concrete
three-row store empties the listing of the descendant folder and makes
the descendant file invisible unless deleted rows are included. -/
theorem softDelete_spec_witness :
    ∃ s', softDelete tStore 0 "u" = .ok s' ∧
      listChildren s' (some 1) "u" false = [] ∧
      get s' 2 "u" false = none ∧
      get s' 2 "u" true = some { tF with is_deleted := true, updated_at := 9 } := by
  have nd : UniqueIds tStore := by unfold UniqueIds; decide
  have hp : ParentOk tStore := by unfold ParentOk; decide
  have ha : AcyclicOk tStore := by unfold AcyclicOk; decide
  have h01 : IsAncestor tStore 0 1 :=
    IsAncestor.parent (e := tB) (List.Mem.tail _ (List.Mem.head _)) rfl
  have h02 : IsAncestor tStore 0 2 :=
    IsAncestor.step (e := tF) (List.Mem.tail _ (List.Mem.tail _ (List.Mem.head _))) rfl h01
  obtain ⟨s', hok, _, hlist, hget⟩ :=
    softDelete_spec tStore 0 "u" tA nd hp ha rfl rfl rfl
  exact ⟨s', hok, hlist 1 (Or.inr h01), (hget 2 tF h02 rfl).1, (hget 2 tF h02 rfl).2⟩

/-! ### Success shapes of the mutating operations -/

theorem create_ok_shape {s : Store} {parentId : Option EntryId} {name : String}
    {isFolder : Bool} {ownerId : String} {sizeBytes : Option Nat}
    {mimeType storageUrl : Option String} {s' : Store}
    (h : create s parentId name isFolder ownerId sizeBytes mimeType storageUrl
      = .ok s') :
    ∃ ancNames, s' = create.insertNew s parentId ancNames name isFolder ownerId
      sizeBytes mimeType storageUrl ∧
      ∀ pid, parentId = some pid → ∃ p, findEntry s pid = some p ∧
        p.is_folder = true ∧ p.owner_id = ownerId := by
  unfold create at h
  split at h
  · exact ⟨[], (Except.ok.inj h).symm, fun pid hpid => by cases hpid⟩
  · split at h
    · cases h
    · rename_i p hf
      split at h
      · cases h
      · rename_i hvp
        split at h
        · cases h
        · rename_i anc hw
          refine ⟨(anc ++ [p]).map (·.name), (Except.ok.inj h).symm, ?_⟩
          intro pid₂ hpid₂
          cases hpid₂
          refine ⟨p, hf, ?_, not_not.mp (not_or.mp hvp).1⟩
          cases hb : p.is_folder with
          | false => exact absurd hb (not_or.mp hvp).2
          | true => rfl

theorem rename_ok_shape {s : Store} {i : EntryId} {n actor : String} {s' : Store}
    (h : rename s i n actor = .ok s') :
    ∃ e es, findEntry s i = some e ∧ e.owner_id = actor ∧ ¬(n = "") ∧
      subtreeMap (updateRow s i (setName n)) i (pathUpd s.clock)
        (updateRow s i (setName n)).entries = .ok es ∧
      s' = { entries := es, nextId := s.nextId, clock := s.clock + 1 } := by
  unfold rename at h
  split at h
  · cases h
  · rename_i e hf
    split at h
    · cases h
    · rename_i hown
      split at h
      · cases h
      · rename_i hname
        dsimp only at h
        split at h
        · cases h
        · rename_i es hes
          exact ⟨e, es, hf, not_not.mp hown, hname, hes, (Except.ok.inj h).symm⟩

theorem commitMove_ok_shape {s : Store} {i : EntryId} {np : Option EntryId}
    {s' : Store} (h : move.commitMove s i np = .ok s') :
    ∃ es, subtreeMap (updateRow s i (setParent np)) i (pathUpd s.clock)
        (updateRow s i (setParent np)).entries = .ok es ∧
      s' = { entries := es, nextId := s.nextId, clock := s.clock + 1 } := by
  unfold move.commitMove at h
  dsimp only at h
  split at h
  · cases h
  · rename_i es hes
    exact ⟨es, hes, (Except.ok.inj h).symm⟩

theorem move_ok_shape {s : Store} {i : EntryId} {np : Option EntryId}
    {actor : String} {s' : Store} (h : move s i np actor = .ok s') :
    ∃ e es, findEntry s i = some e ∧ e.owner_id = actor ∧
      subtreeMap (updateRow s i (setParent np)) i (pathUpd s.clock)
        (updateRow s i (setParent np)).entries = .ok es ∧
      s' = { entries := es, nextId := s.nextId, clock := s.clock + 1 } ∧
      ∀ pid, np = some pid → ∃ p, findEntry s pid = some p ∧
        p.is_folder = true ∧ p.owner_id = actor := by
  unfold move at h
  split at h
  · cases h
  · rename_i e hf
    split at h
    · cases h
    · rename_i hown
      split at h
      · rename_i hnone
        obtain ⟨es, hes, hs'⟩ := commitMove_ok_shape h
        exact ⟨e, es, hf, not_not.mp hown, hes, hs', fun pid hpid => by cases hpid⟩
      · rename_i pid
        split at h
        · cases h
        · split at h
          · cases h
          · rename_i p hp
            split at h
            · cases h
            · rename_i anc hw
              split at h
              · cases h
              · split at h
                · cases h
                · rename_i hvp
                  obtain ⟨es, hes, hs'⟩ := commitMove_ok_shape h
                  refine ⟨e, es, hf, not_not.mp hown, hes, hs', ?_⟩
                  intro pid₂ hpid₂
                  cases hpid₂
                  refine ⟨p, hp, ?_, not_not.mp (not_or.mp hvp).1⟩
                  cases hb : p.is_folder with
                  | false => exact absurd hb (not_or.mp hvp).2
                  | true => rfl

theorem softDelete_ok_shape {s : Store} {i : EntryId} {actor : String} {s' : Store}
    (h : softDelete s i actor = .ok s') :
    ∃ e es, findEntry s i = some e ∧ e.owner_id = actor ∧
      subtreeMap s i (delUpd s.clock) s.entries = .ok es ∧
      s' = { entries := es, nextId := s.nextId, clock := s.clock + 1 } := by
  unfold softDelete at h
  split at h
  · cases h
  · rename_i e hf
    split at h
    · cases h
    · rename_i hown
      split at h
      · cases h
      · rename_i es hes
        exact ⟨e, es, hf, not_not.mp hown, hes, (Except.ok.inj h).symm⟩

theorem restore_ok_shape {s : Store} {i : EntryId} {actor : String} {s' : Store}
    (h : restore s i actor = .ok s') :
    ∃ e anc, findEntry s i = some e ∧ e.owner_id = actor ∧
      ancWalk s maxDepth [i] e.parent_id = .ok anc ∧
      s' = { entries := s.entries.map (rowMod i (setDeleted false s.clock)),
             nextId := s.nextId, clock := s.clock + 1 } := by
  unfold restore at h
  split at h
  · cases h
  · rename_i e hf
    split at h
    · cases h
    · rename_i hown
      split at h
      · cases h
      · rename_i anc hw
        split at h
        · cases h
        · exact ⟨e, anc, hf, not_not.mp hown, hw, (Except.ok.inj h).symm⟩

theorem star_ok_shape {s : Store} {i : EntryId} {actor : String} {st : Bool}
    {s' : Store} (h : star s i actor st = .ok s') :
    ∃ e, findEntry s i = some e ∧ e.owner_id = actor ∧
      s' = { entries := s.entries.map (rowMod i (setStarred st s.clock)),
             nextId := s.nextId, clock := s.clock + 1 } := by
  unfold star at h
  split at h
  · cases h
  · rename_i e hf
    split at h
    · cases h
    · rename_i hown
      exact ⟨e, hf, not_not.mp hown, (Except.ok.inj h).symm⟩

/-! ### Audit timestamps -/

theorem findEntry_append_fresh {s : Store} (hfr : FreshIds s) (row : Entry)
    (hrow : row.id = s.nextId) (n : EntryId) (c : Nat) :
    findEntry { entries := s.entries ++ [row], nextId := n, clock := c }
      s.nextId = some row := by
  unfold findEntry
  simp only
  rw [List.find?_append]
  have h1 : s.entries.find? (fun e => e.id == s.nextId) = none := by
    rw [List.find?_eq_none]
    intro f hf hb
    exact absurd (eq_of_beq hb) (Nat.ne_of_lt (hfr f hf))
  rw [h1]
  simp [List.find?, hrow]

theorem created_preserved_of_map {s : Store} {es : List Entry} {g : Entry → Entry}
    (nd : UniqueIds s) (hmap : es = s.entries.map g) (hid : ∀ f, (g f).id = f.id)
    (hcr : ∀ f, (g f).created_at = f.created_at) :
    ∀ e ∈ s.entries, ∀ e' ∈ es, e'.id = e.id → e'.created_at = e.created_at := by
  intro e he e' he' hid'
  rw [hmap] at he'
  obtain ⟨f, hf, rfl⟩ := List.mem_map.mp he'
  rw [hid f] at hid'
  rw [hcr f, mem_id_unique nd hf he hid']

/-- Claim C8: every successful mutating operation refreshes the
`updated_at` timestamp of the entry it targets to the time of that
mutation, `created_at` is never changed by any operation, and `create`
stamps both timestamps of the inserted row with the creation time. -/
theorem timestamps_spec (s s' : Store) (op : Op) (nd : UniqueIds s)
    (hfr : FreshIds s) (hok : applyOp s op = .ok s') :
    (∀ i, op.target = some i →
      ∃ e', findEntry s' i = some e' ∧ e'.updated_at = s.clock) ∧
    (∀ e ∈ s.entries, ∀ e' ∈ s'.entries, e'.id = e.id →
      e'.created_at = e.created_at) ∧
    (∀ parentId name isFolder ownerId sizeBytes mimeType storageUrl,
      op = .create parentId name isFolder ownerId sizeBytes mimeType storageUrl →
      ∃ e', findEntry s' s.nextId = some e' ∧ e'.created_at = s.clock ∧
        e'.updated_at = s.clock) := by
  cases op with
  | create parentId name isFolder ownerId sizeBytes mimeType storageUrl =>
    simp only [applyOp] at hok
    obtain ⟨ancNames, rfl, _⟩ := create_ok_shape hok
    refine ⟨?_, ?_, ?_⟩
    · intro i hi
      simp [Op.target] at hi
    · intro e he e' he' hid'
      rcases List.mem_append.mp he' with hmem | hmem
      · rw [mem_id_unique nd hmem he hid']
      · exfalso
        rw [List.mem_singleton] at hmem
        subst hmem
        exact absurd hid' (by
          show ¬(s.nextId = e.id)
          exact fun hh => absurd hh.symm (Nat.ne_of_lt (hfr e he)))
    · intro _ _ _ _ _ _ _ _
      exact ⟨_, findEntry_append_fresh hfr _ rfl _ _, rfl, rfl⟩
  | rename i n actor =>
    simp only [applyOp] at hok
    obtain ⟨e, es, he, hown, _, hes, rfl⟩ := rename_ok_shape hok
    obtain ⟨hmem, hid⟩ := findEntry_eq_some he
    have hmap : es = (updateRow s i (setName n)).entries.map
        (subtreeUpd (updateRow s i (setName n)) i (pathUpd s.clock)) :=
      subtreeMap_ok hes
    have rid : ∀ f, (rowMod i (setName n) f).id = f.id :=
      rowMod_pres i (setName n) (·.id) (fun _ => rfl)
    have gid : ∀ f, (subtreeUpd (updateRow s i (setName n)) i (pathUpd s.clock) f).id
        = f.id :=
      subtreeUpd_pres (updateRow s i (setName n)) i (pathUpd s.clock) (·.id)
        (fun _ _ => rfl)
    refine ⟨?_, ?_, ?_⟩
    · intro j hj
      have hij : j = i := (Option.some.inj hj).symm
      rw [hij]
      have hmem₁ : rowMod i (setName n) e ∈ (updateRow s i (setName n)).entries :=
        List.mem_map_of_mem _ hmem
      obtain ⟨anc, hw⟩ := subtreeMap_ok_walks hes _ hmem₁
      have hre : (rowMod i (setName n) e).id = i := (rid e).trans hid
      have hval : subtreeUpd (updateRow s i (setName n)) i (pathUpd s.clock)
          (rowMod i (setName n) e) = pathUpd s.clock (rowMod i (setName n) e) anc := by
        unfold subtreeUpd
        simp only [hw]
        rw [if_pos (by simp [hre])]
      refine ⟨pathUpd s.clock (rowMod i (setName n) e) anc, ?_, rfl⟩
      rw [show ({ entries := es, nextId := s.nextId, clock := s.clock + 1 } : Store)
          = { entries := (updateRow s i (setName n)).entries.map
                (subtreeUpd (updateRow s i (setName n)) i (pathUpd s.clock)),
              nextId := s.nextId, clock := s.clock + 1 } by rw [← hmap]]
      rw [findEntry_map_entries gid (updateRow s i (setName n)) s.nextId
        (s.clock + 1) i]
      rw [show findEntry (updateRow s i (setName n)) i
          = some (rowMod i (setName n) e) from by
          rw [show updateRow s i (setName n)
              = { entries := s.entries.map (rowMod i (setName n)),
                  nextId := s.nextId, clock := s.clock } from rfl]
          rw [findEntry_map_entries rid s s.nextId s.clock i, he]
          rfl]
      simp only [Option.map]
      rw [hval]
    · rw [show (updateRow s i (setName n)).entries
        = s.entries.map (rowMod i (setName n)) from rfl, List.map_map] at hmap
      exact created_preserved_of_map nd hmap
        (fun f => (gid (rowMod i (setName n) f)).trans (rid f))
        (fun f => (subtreeUpd_pres (updateRow s i (setName n)) i (pathUpd s.clock)
            (·.created_at) (fun _ _ => rfl) (rowMod i (setName n) f)).trans
          (rowMod_pres i (setName n) (·.created_at) (fun _ => rfl) f))
    · intro _ _ _ _ _ _ _ hop
      cases hop
  | move i np actor =>
    simp only [applyOp] at hok
    obtain ⟨e, es, he, hown, hes, rfl, _⟩ := move_ok_shape hok
    obtain ⟨hmem, hid⟩ := findEntry_eq_some he
    have hmap : es = (updateRow s i (setParent np)).entries.map
        (subtreeUpd (updateRow s i (setParent np)) i (pathUpd s.clock)) :=
      subtreeMap_ok hes
    have rid : ∀ f, (rowMod i (setParent np) f).id = f.id :=
      rowMod_pres i (setParent np) (·.id) (fun _ => rfl)
    have gid : ∀ f, (subtreeUpd (updateRow s i (setParent np)) i (pathUpd s.clock) f).id
        = f.id :=
      subtreeUpd_pres (updateRow s i (setParent np)) i (pathUpd s.clock) (·.id)
        (fun _ _ => rfl)
    refine ⟨?_, ?_, ?_⟩
    · intro j hj
      have hij : j = i := (Option.some.inj hj).symm
      rw [hij]
      have hmem₁ : rowMod i (setParent np) e ∈ (updateRow s i (setParent np)).entries :=
        List.mem_map_of_mem _ hmem
      obtain ⟨anc, hw⟩ := subtreeMap_ok_walks hes _ hmem₁
      have hre : (rowMod i (setParent np) e).id = i := (rid e).trans hid
      have hval : subtreeUpd (updateRow s i (setParent np)) i (pathUpd s.clock)
          (rowMod i (setParent np) e)
          = pathUpd s.clock (rowMod i (setParent np) e) anc := by
        unfold subtreeUpd
        simp only [hw]
        rw [if_pos (by simp [hre])]
      refine ⟨pathUpd s.clock (rowMod i (setParent np) e) anc, ?_, rfl⟩
      rw [show ({ entries := es, nextId := s.nextId, clock := s.clock + 1 } : Store)
          = { entries := (updateRow s i (setParent np)).entries.map
                (subtreeUpd (updateRow s i (setParent np)) i (pathUpd s.clock)),
              nextId := s.nextId, clock := s.clock + 1 } by rw [← hmap]]
      rw [findEntry_map_entries gid (updateRow s i (setParent np)) s.nextId
        (s.clock + 1) i]
      rw [show findEntry (updateRow s i (setParent np)) i
          = some (rowMod i (setParent np) e) from by
          rw [show updateRow s i (setParent np)
              = { entries := s.entries.map (rowMod i (setParent np)),
                  nextId := s.nextId, clock := s.clock } from rfl]
          rw [findEntry_map_entries rid s s.nextId s.clock i, he]
          rfl]
      simp only [Option.map]
      rw [hval]
    · rw [show (updateRow s i (setParent np)).entries
        = s.entries.map (rowMod i (setParent np)) from rfl, List.map_map] at hmap
      exact created_preserved_of_map nd hmap
        (fun f => (gid (rowMod i (setParent np) f)).trans (rid f))
        (fun f => (subtreeUpd_pres (updateRow s i (setParent np)) i (pathUpd s.clock)
            (·.created_at) (fun _ _ => rfl) (rowMod i (setParent np) f)).trans
          (rowMod_pres i (setParent np) (·.created_at) (fun _ => rfl) f))
    · intro _ _ _ _ _ _ _ hop
      cases hop
  | softDelete i actor =>
    simp only [applyOp] at hok
    obtain ⟨e, es, he, hown, hes, rfl⟩ := softDelete_ok_shape hok
    obtain ⟨hmem, hid⟩ := findEntry_eq_some he
    have hmap : es = s.entries.map (subtreeUpd s i (delUpd s.clock)) :=
      subtreeMap_ok hes
    have gid : ∀ f, (subtreeUpd s i (delUpd s.clock) f).id = f.id :=
      subtreeUpd_pres s i (delUpd s.clock) (·.id) (fun _ _ => rfl)
    refine ⟨?_, ?_, ?_⟩
    · intro j hj
      have hij : j = i := (Option.some.inj hj).symm
      rw [hij]
      obtain ⟨anc, hw⟩ := subtreeMap_ok_walks hes _ hmem
      have hval : subtreeUpd s i (delUpd s.clock) e = delUpd s.clock e anc := by
        unfold subtreeUpd
        simp only [hw]
        rw [if_pos (by simp [hid])]
      refine ⟨delUpd s.clock e anc, ?_, rfl⟩
      rw [show ({ entries := es, nextId := s.nextId, clock := s.clock + 1 } : Store)
          = { entries := s.entries.map (subtreeUpd s i (delUpd s.clock)),
              nextId := s.nextId, clock := s.clock + 1 } by rw [← hmap]]
      rw [findEntry_map_entries gid s s.nextId (s.clock + 1) i, he]
      simp only [Option.map]
      rw [hval]
    · exact created_preserved_of_map nd hmap gid
        (fun f => subtreeUpd_pres s i (delUpd s.clock) (·.created_at)
          (fun _ _ => rfl) f)
    · intro _ _ _ _ _ _ _ hop
      cases hop
  | restore i actor =>
    simp only [applyOp] at hok
    obtain ⟨e, anc, he, hown, hw, rfl⟩ := restore_ok_shape hok
    obtain ⟨hmem, hid⟩ := findEntry_eq_some he
    have rid : ∀ f, (rowMod i (setDeleted false s.clock) f).id = f.id :=
      rowMod_pres i (setDeleted false s.clock) (·.id) (fun _ => rfl)
    refine ⟨?_, ?_, ?_⟩
    · intro j hj
      have hij : j = i := (Option.some.inj hj).symm
      rw [hij]
      refine ⟨rowMod i (setDeleted false s.clock) e, ?_, ?_⟩
      · rw [findEntry_map_entries rid s s.nextId (s.clock + 1) i, he]
        rfl
      · show (rowMod i (setDeleted false s.clock) e).updated_at = s.clock
        unfold rowMod
        rw [if_pos (by simp [hid])]
        rfl
    · exact created_preserved_of_map nd rfl rid
        (fun f => rowMod_pres i (setDeleted false s.clock) (·.created_at)
          (fun _ => rfl) f)
    · intro _ _ _ _ _ _ _ hop
      cases hop
  | star i actor st =>
    simp only [applyOp] at hok
    obtain ⟨e, he, hown, rfl⟩ := star_ok_shape hok
    obtain ⟨hmem, hid⟩ := findEntry_eq_some he
    have rid : ∀ f, (rowMod i (setStarred st s.clock) f).id = f.id :=
      rowMod_pres i (setStarred st s.clock) (·.id) (fun _ => rfl)
    refine ⟨?_, ?_, ?_⟩
    · intro j hj
      have hij : j = i := (Option.some.inj hj).symm
      rw [hij]
      refine ⟨rowMod i (setStarred st s.clock) e, ?_, ?_⟩
      · rw [findEntry_map_entries rid s s.nextId (s.clock + 1) i, he]
        rfl
      · show (rowMod i (setStarred st s.clock) e).updated_at = s.clock
        unfold rowMod
        rw [if_pos (by simp [hid])]
        rfl
    · exact created_preserved_of_map nd rfl rid
        (fun f => rowMod_pres i (setStarred st s.clock) (·.created_at)
          (fun _ => rfl) f)
    · intro _ _ _ _ _ _ _ hop
      cases hop

/-- The result of starring the file row of the example store. -/
def tStoreStar : Store :=
  { entries := [tA, tB, { tF with is_starred := true, updated_at := 9 }],
    nextId := 3, clock := 10 }

/-- Witness for C8 on a concrete mutation: starring the file row
refreshes its `updated_at` to the mutation time while every
`created_at` is kept. -/
theorem timestamps_spec_witness :
    (∃ e', findEntry tStoreStar 2 = some e' ∧ e'.updated_at = 9) ∧
    (∀ e ∈ tStore.entries, ∀ e' ∈ tStoreStar.entries, e'.id = e.id →
      e'.created_at = e.created_at) := by
  have h := timestamps_spec tStore tStoreStar (.star 2 "u" true)
    (by unfold UniqueIds; decide) (by unfold FreshIds; decide) rfl
  exact ⟨h.1 2 rfl, h.2.1⟩

/-! ### Preservation of the parent-validity invariant -/

theorem parentOkB_map_store {s : Store} {g : Entry → Entry} (n : EntryId) (c : Nat)
    (hid : ∀ f, (g f).id = f.id) (hfold : ∀ f, (g f).is_folder = f.is_folder)
    (hown : ∀ f, (g f).owner_id = f.owner_id) (x : Entry) :
    parentOkB { entries := s.entries.map g, nextId := n, clock := c } x
      = parentOkB s x := by
  unfold parentOkB
  split
  · rfl
  · rename_i pid hpx
    rw [findEntry_map_entries hid s n c pid]
    cases hq : findEntry s pid with
    | none => rfl
    | some p =>
      show ((g p).is_folder && (g p).owner_id == x.owner_id)
        = (p.is_folder && p.owner_id == x.owner_id)
      rw [hfold p, hown p]

theorem parentOkB_row_congr {s : Store} {x y : Entry}
    (hpar : x.parent_id = y.parent_id) (hown : x.owner_id = y.owner_id) :
    parentOkB s x = parentOkB s y := by
  unfold parentOkB
  rw [hpar, hown]

theorem parentOkB_append {s : Store} {x row : Entry} (n : EntryId) (c : Nat)
    (h : parentOkB s x = true) :
    parentOkB { entries := s.entries ++ [row], nextId := n, clock := c } x = true := by
  unfold parentOkB at h ⊢
  split at h
  · rfl
  · rename_i pid hpx
    split at h
    · cases h
    · rename_i p hq
      have hfind : findEntry
          { entries := s.entries ++ [row], nextId := n, clock := c } pid
          = some p := by
        unfold findEntry at hq ⊢
        simp only at hq ⊢
        rw [List.find?_append, hq]
        rfl
      rw [hfind]
      exact h

/-- Every operation preserves invariant 2 (valid folder parents with
constant ownership). -/
theorem parentOk_step {s s' : Store} {op : Op} (nd : UniqueIds s) (hp : ParentOk s)
    (hok : applyOp s op = .ok s') : ParentOk s' := by
  cases op with
  | create parentId name isFolder ownerId sizeBytes mimeType storageUrl =>
    simp only [applyOp] at hok
    obtain ⟨ancNames, rfl, hpv⟩ := create_ok_shape hok
    intro e' he'
    rcases List.mem_append.mp he' with hmem | hmem
    · exact parentOkB_append _ _ (hp e' hmem)
    · rw [List.mem_singleton] at hmem
      subst hmem
      cases hpar : parentId with
      | none =>
        subst hpar
        rfl
      | some pid =>
        subst hpar
        obtain ⟨p, hfp, hfold, hpo⟩ := hpv pid rfl
        have hfind : findEntry (create.insertNew s (some pid) ancNames name
            isFolder ownerId sizeBytes mimeType storageUrl) pid = some p := by
          unfold findEntry at hfp ⊢
          show List.find? (fun e => e.id == pid)
            (s.entries ++ [newRow s (some pid) ancNames name isFolder ownerId
              sizeBytes mimeType storageUrl]) = some p
          rw [List.find?_append, hfp]
          rfl
        show parentOkB _ (newRow s (some pid) ancNames name isFolder ownerId
          sizeBytes mimeType storageUrl) = true
        unfold parentOkB
        show (match findEntry (create.insertNew s (some pid) ancNames name
            isFolder ownerId sizeBytes mimeType storageUrl) pid with
          | none => false
          | some q => q.is_folder && q.owner_id == ownerId) = true
        rw [hfind]
        show (p.is_folder && p.owner_id == ownerId) = true
        simp [hfold, hpo]
  | rename i n actor =>
    simp only [applyOp] at hok
    obtain ⟨e, es, he, hown, _, hes, rfl⟩ := rename_ok_shape hok
    have hmap : es = (updateRow s i (setName n)).entries.map
        (subtreeUpd (updateRow s i (setName n)) i (pathUpd s.clock)) :=
      subtreeMap_ok hes
    intro e' he'
    simp only at he'
    rw [hmap] at he'
    obtain ⟨f₁, hf₁, rfl⟩ := List.mem_map.mp he'
    obtain ⟨f, hf, rfl⟩ := List.mem_map.mp hf₁
    rw [parentOkB_row_congr
      ((subtreeUpd_pres (updateRow s i (setName n)) i (pathUpd s.clock)
        (·.parent_id) (fun _ _ => rfl) (rowMod i (setName n) f)).trans
        (rowMod_pres i (setName n) (·.parent_id) (fun _ => rfl) f))
      ((subtreeUpd_pres (updateRow s i (setName n)) i (pathUpd s.clock)
        (·.owner_id) (fun _ _ => rfl) (rowMod i (setName n) f)).trans
        (rowMod_pres i (setName n) (·.owner_id) (fun _ => rfl) f))]
    rw [show ({ entries := es, nextId := s.nextId, clock := s.clock + 1 } : Store)
        = { entries := (updateRow s i (setName n)).entries.map
              (subtreeUpd (updateRow s i (setName n)) i (pathUpd s.clock)),
            nextId := s.nextId, clock := s.clock + 1 } by rw [← hmap]]
    rw [parentOkB_map_store s.nextId (s.clock + 1)
      (subtreeUpd_pres (updateRow s i (setName n)) i (pathUpd s.clock) (·.id)
        (fun _ _ => rfl))
      (subtreeUpd_pres (updateRow s i (setName n)) i (pathUpd s.clock) (·.is_folder)
        (fun _ _ => rfl))
      (subtreeUpd_pres (updateRow s i (setName n)) i (pathUpd s.clock) (·.owner_id)
        (fun _ _ => rfl))]
    rw [updateRow_eq s i (setName n)]
    rw [parentOkB_map_store s.nextId s.clock
      (rowMod_pres i (setName n) (·.id) (fun _ => rfl))
      (rowMod_pres i (setName n) (·.is_folder) (fun _ => rfl))
      (rowMod_pres i (setName n) (·.owner_id) (fun _ => rfl))]
    exact hp f hf
  | move i np actor =>
    simp only [applyOp] at hok
    obtain ⟨e, es, he, hown, hes, rfl, hpv⟩ := move_ok_shape hok
    obtain ⟨hmem, hid⟩ := findEntry_eq_some he
    have hmap : es = (updateRow s i (setParent np)).entries.map
        (subtreeUpd (updateRow s i (setParent np)) i (pathUpd s.clock)) :=
      subtreeMap_ok hes
    intro e' he'
    simp only at he'
    rw [hmap] at he'
    obtain ⟨f₁, hf₁, rfl⟩ := List.mem_map.mp he'
    obtain ⟨f, hf, rfl⟩ := List.mem_map.mp hf₁
    rw [parentOkB_row_congr
      (subtreeUpd_pres (updateRow s i (setParent np)) i (pathUpd s.clock)
        (·.parent_id) (fun _ _ => rfl) (rowMod i (setParent np) f))
      (subtreeUpd_pres (updateRow s i (setParent np)) i (pathUpd s.clock)
        (·.owner_id) (fun _ _ => rfl) (rowMod i (setParent np) f))]
    rw [show ({ entries := es, nextId := s.nextId, clock := s.clock + 1 } : Store)
        = { entries := (updateRow s i (setParent np)).entries.map
              (subtreeUpd (updateRow s i (setParent np)) i (pathUpd s.clock)),
            nextId := s.nextId, clock := s.clock + 1 } by rw [← hmap]]
    rw [parentOkB_map_store s.nextId (s.clock + 1)
      (subtreeUpd_pres (updateRow s i (setParent np)) i (pathUpd s.clock) (·.id)
        (fun _ _ => rfl))
      (subtreeUpd_pres (updateRow s i (setParent np)) i (pathUpd s.clock)
        (·.is_folder) (fun _ _ => rfl))
      (subtreeUpd_pres (updateRow s i (setParent np)) i (pathUpd s.clock)
        (·.owner_id) (fun _ _ => rfl))]
    rw [updateRow_eq s i (setParent np)]
    rw [parentOkB_map_store s.nextId s.clock
      (rowMod_pres i (setParent np) (·.id) (fun _ => rfl))
      (rowMod_pres i (setParent np) (·.is_folder) (fun _ => rfl))
      (rowMod_pres i (setParent np) (·.owner_id) (fun _ => rfl))]
    by_cases hfi : f.id = i
    · have hff : rowMod i (setParent np) f = setParent np f := by
        unfold rowMod
        rw [if_pos (by simp [hfi])]
      rw [hff]
      cases hnp : np with
      | none =>
        unfold parentOkB
        rfl
      | some pid =>
        obtain ⟨p, hfp, hfold, hpo⟩ := hpv pid hnp
        unfold parentOkB
        show (match findEntry s pid with
          | none => false
          | some q => q.is_folder && q.owner_id == (setParent np f).owner_id) = true
        rw [hfp]
        have hfo : f.owner_id = actor := by
          have hfe : f = e := mem_id_unique nd hf hmem (hfi.trans hid.symm)
          rw [hfe, hown]
        simp only [hfold, Bool.true_and, beq_iff_eq, hpo]
        exact hfo.symm
    · have hff : rowMod i (setParent np) f = f := by
        unfold rowMod
        rw [if_neg (by simp [hfi])]
      rw [hff]
      exact hp f hf
  | softDelete i actor =>
    simp only [applyOp] at hok
    obtain ⟨e, es, he, hown, hes, rfl⟩ := softDelete_ok_shape hok
    have hmap : es = s.entries.map (subtreeUpd s i (delUpd s.clock)) :=
      subtreeMap_ok hes
    intro e' he'
    simp only at he'
    rw [hmap] at he'
    obtain ⟨f, hf, rfl⟩ := List.mem_map.mp he'
    rw [show ({ entries := es, nextId := s.nextId, clock := s.clock + 1 } : Store)
        = { entries := s.entries.map (subtreeUpd s i (delUpd s.clock)),
            nextId := s.nextId, clock := s.clock + 1 } by rw [← hmap]]
    rw [parentOkB_map_store s.nextId (s.clock + 1)
      (subtreeUpd_pres s i (delUpd s.clock) (·.id) (fun _ _ => rfl))
      (subtreeUpd_pres s i (delUpd s.clock) (·.is_folder) (fun _ _ => rfl))
      (subtreeUpd_pres s i (delUpd s.clock) (·.owner_id) (fun _ _ => rfl))]
    rw [parentOkB_row_congr
      (subtreeUpd_pres s i (delUpd s.clock) (·.parent_id) (fun _ _ => rfl) f)
      (subtreeUpd_pres s i (delUpd s.clock) (·.owner_id) (fun _ _ => rfl) f)]
    exact hp f hf
  | restore i actor =>
    simp only [applyOp] at hok
    obtain ⟨e, anc, he, hown, hw, rfl⟩ := restore_ok_shape hok
    intro e' he'
    simp only at he'
    obtain ⟨f, hf, rfl⟩ := List.mem_map.mp he'
    rw [parentOkB_row_congr
      (rowMod_pres i (setDeleted false s.clock) (·.parent_id) (fun _ => rfl) f)
      (rowMod_pres i (setDeleted false s.clock) (·.owner_id) (fun _ => rfl) f)]
    rw [parentOkB_map_store s.nextId (s.clock + 1)
      (rowMod_pres i (setDeleted false s.clock) (·.id) (fun _ => rfl))
      (rowMod_pres i (setDeleted false s.clock) (·.is_folder) (fun _ => rfl))
      (rowMod_pres i (setDeleted false s.clock) (·.owner_id) (fun _ => rfl))]
    exact hp f hf
  | star i actor st =>
    simp only [applyOp] at hok
    obtain ⟨e, he, hown, rfl⟩ := star_ok_shape hok
    intro e' he'
    simp only at he'
    obtain ⟨f, hf, rfl⟩ := List.mem_map.mp he'
    rw [parentOkB_row_congr
      (rowMod_pres i (setStarred st s.clock) (·.parent_id) (fun _ => rfl) f)
      (rowMod_pres i (setStarred st s.clock) (·.owner_id) (fun _ => rfl) f)]
    rw [parentOkB_map_store s.nextId (s.clock + 1)
      (rowMod_pres i (setStarred st s.clock) (·.id) (fun _ => rfl))
      (rowMod_pres i (setStarred st s.clock) (·.is_folder) (fun _ => rfl))
      (rowMod_pres i (setStarred st s.clock) (·.owner_id) (fun _ => rfl))]
    exact hp f hf

/-! ### Preservation of key uniqueness and id freshness -/

theorem uniq_fresh_of_map {s : Store} {es : List Entry} {g : Entry → Entry}
    (nd : UniqueIds s) (hfr : FreshIds s) (hid : ∀ f, (g f).id = f.id)
    (hmap : es = s.entries.map g) (c : Nat) :
    UniqueIds { entries := es, nextId := s.nextId, clock := c } ∧
    FreshIds { entries := es, nextId := s.nextId, clock := c } := by
  constructor
  · show (es.map (·.id)).Nodup
    rw [hmap, List.map_map]
    have hcomp : ((fun e => e.id) ∘ g) = (fun e : Entry => e.id) := funext hid
    rw [hcomp]
    exact nd
  · intro e' he'
    simp only at he'
    rw [hmap] at he'
    obtain ⟨f, hf, rfl⟩ := List.mem_map.mp he'
    show (g f).id < s.nextId
    rw [hid f]
    exact hfr f hf

theorem uniq_fresh_step {s s' : Store} {op : Op} (nd : UniqueIds s)
    (hfr : FreshIds s) (hok : applyOp s op = .ok s') :
    UniqueIds s' ∧ FreshIds s' := by
  cases op with
  | create parentId name isFolder ownerId sizeBytes mimeType storageUrl =>
    simp only [applyOp] at hok
    obtain ⟨ancNames, rfl, _⟩ := create_ok_shape hok
    constructor
    · show ((s.entries ++ [newRow s parentId ancNames name isFolder ownerId
        sizeBytes mimeType storageUrl]).map (·.id)).Nodup
      rw [List.map_append]
      rw [List.nodup_append]
      refine ⟨nd, List.nodup_singleton _, ?_⟩
      intro x hx
      simp only [List.map_cons, List.map_nil, List.mem_singleton]
      intro hx1
      obtain ⟨f, hf, rfl⟩ := List.mem_map.mp hx
      rw [show (newRow s parentId ancNames name isFolder ownerId sizeBytes
        mimeType storageUrl).id = s.nextId from rfl] at hx1
      exact absurd hx1 (Nat.ne_of_lt (hfr f hf))
    · intro e' he'
      show e'.id < s.nextId + 1
      rcases List.mem_append.mp he' with hmem | hmem
      · exact Nat.lt_succ_of_lt (hfr e' hmem)
      · rw [List.mem_singleton] at hmem
        rw [hmem]
        exact Nat.lt_succ_self s.nextId
  | rename i n actor =>
    simp only [applyOp] at hok
    obtain ⟨e, es, he, hown, _, hes, rfl⟩ := rename_ok_shape hok
    have hmap := subtreeMap_ok hes
    rw [show (updateRow s i (setName n)).entries
        = s.entries.map (rowMod i (setName n)) from rfl, List.map_map] at hmap
    exact uniq_fresh_of_map nd hfr
      (fun f => (subtreeUpd_pres (updateRow s i (setName n)) i (pathUpd s.clock)
        (·.id) (fun _ _ => rfl) (rowMod i (setName n) f)).trans
        (rowMod_pres i (setName n) (·.id) (fun _ => rfl) f))
      hmap (s.clock + 1)
  | move i np actor =>
    simp only [applyOp] at hok
    obtain ⟨e, es, he, hown, hes, rfl, _⟩ := move_ok_shape hok
    have hmap := subtreeMap_ok hes
    rw [show (updateRow s i (setParent np)).entries
        = s.entries.map (rowMod i (setParent np)) from rfl, List.map_map] at hmap
    exact uniq_fresh_of_map nd hfr
      (fun f => (subtreeUpd_pres (updateRow s i (setParent np)) i (pathUpd s.clock)
        (·.id) (fun _ _ => rfl) (rowMod i (setParent np) f)).trans
        (rowMod_pres i (setParent np) (·.id) (fun _ => rfl) f))
      hmap (s.clock + 1)
  | softDelete i actor =>
    simp only [applyOp] at hok
    obtain ⟨e, es, he, hown, hes, rfl⟩ := softDelete_ok_shape hok
    exact uniq_fresh_of_map nd hfr
      (subtreeUpd_pres s i (delUpd s.clock) (·.id) (fun _ _ => rfl))
      (subtreeMap_ok hes) (s.clock + 1)
  | restore i actor =>
    simp only [applyOp] at hok
    obtain ⟨e, anc, he, hown, hw, rfl⟩ := restore_ok_shape hok
    exact uniq_fresh_of_map nd hfr
      (rowMod_pres i (setDeleted false s.clock) (·.id) (fun _ => rfl))
      rfl (s.clock + 1)
  | star i actor st =>
    simp only [applyOp] at hok
    obtain ⟨e, he, hown, rfl⟩ := star_ok_shape hok
    exact uniq_fresh_of_map nd hfr
      (rowMod_pres i (setStarred st s.clock) (·.id) (fun _ => rfl))
      rfl (s.clock + 1)

/-- Key uniqueness, id freshness and parent validity hold in every
reachable state. -/
theorem reachable_wf_core (s : Store) (hr : Reachable s) :
    UniqueIds s ∧ FreshIds s ∧ ParentOk s := by
  induction hr with
  | init =>
    refine ⟨List.nodup_nil, ?_, ?_⟩
    · intro e he
      cases he
    · intro e he
      cases he
  | step o hrp hok ih =>
    obtain ⟨nd, hfr, hp⟩ := ih
    obtain ⟨nd', hfr'⟩ := uniq_fresh_step nd hfr hok
    exact ⟨nd', hfr', parentOk_step nd hp hok⟩

/-- Claim C6: in every reachable state, every entry with a set
`parent_id` has a parent that exists, is a folder, and has the same
owner — the invariant is preserved by create, move and every other
mutation. -/
theorem parent_invariant (s : Store) (hr : Reachable s) :
    ∀ e ∈ s.entries, ∀ pid, e.parent_id = some pid →
      ∃ p, findEntry s pid = some p ∧ p.is_folder = true ∧
        p.owner_id = e.owner_id := by
  intro e he pid hpid
  exact parentOk_spec (reachable_wf_core s hr).2.2 he hpid

/-- The root folder "/A" as built by `create` on the empty store. -/
def rowA : Entry :=
  { id := 0, name := "A", path := "/A", size_bytes := 0, mime_type := "folder",
    storage_url := "", owner_id := "u", parent_id := none, is_folder := true,
    is_starred := false, is_deleted := false, created_at := 0, updated_at := 0 }

/-- The folder "/A/B" created under `rowA`. -/
def rowB : Entry :=
  { rowA with
    id := 1, name := "B", path := "/A/B", parent_id := some 0,
    created_at := 1, updated_at := 1 }

/-- The file "/A/B/f" created under `rowB`. -/
def rowF : Entry :=
  { rowA with
    id := 2, name := "f", path := "/A/B/f", size_bytes := 4,
    mime_type := "text/plain", storage_url := "u8", parent_id := some 1,
    is_folder := false, created_at := 2, updated_at := 2 }

/-- The store reached by three consecutive creates. -/
def cStore3 : Store := { entries := [rowA, rowB, rowF], nextId := 3, clock := 3 }

/-- `cStore3` is reachable from the empty store. -/
theorem reachable_cStore3 : Reachable cStore3 :=
  Reachable.step (.create (some 1) "f" false "u" (some 4) (some "text/plain")
      (some "u8"))
    (Reachable.step (.create (some 0) "B" true "u" none none none)
      (Reachable.step (.create none "A" true "u" none none none)
        Reachable.init rfl)
      rfl)
    rfl

/-- Witness for C6 on the concrete reachable store: the file row's
parent link resolves to an existing folder of the same owner. -/
theorem parent_invariant_witness :
    ∃ p, findEntry cStore3 1 = some p ∧ p.is_folder = true ∧
      p.owner_id = rowF.owner_id :=
  parent_invariant cStore3 reachable_cStore3 rowF
    (List.Mem.tail _ (List.Mem.tail _ (List.Mem.head _))) 1 rfl

/-! ### Size invariants -/

/-- Invariant on sizes: non-negative, and zero for folders. -/
def SizeOk (s : Store) : Prop :=
  ∀ e ∈ s.entries, 0 ≤ e.size_bytes ∧ (e.is_folder = true → e.size_bytes = 0)

theorem proj_preserved_of_map {α : Type} {s : Store} {es : List Entry}
    {g : Entry → Entry} (nd : UniqueIds s) (hmap : es = s.entries.map g)
    (hid : ∀ f, (g f).id = f.id) (P : Entry → α) (hP : ∀ f, P (g f) = P f) :
    ∀ e ∈ s.entries, ∀ e' ∈ es, e'.id = e.id → P e' = P e := by
  intro e he e' he' hid'
  rw [hmap] at he'
  obtain ⟨f, hf, rfl⟩ := List.mem_map.mp he'
  rw [hid f] at hid'
  rw [hP f, mem_id_unique nd hf he hid']

theorem sizeOk_of_map {s : Store} {es : List Entry} {g : Entry → Entry}
    (hs : SizeOk s) (hmap : es = s.entries.map g)
    (hsz : ∀ f, (g f).size_bytes = f.size_bytes)
    (hfo : ∀ f, (g f).is_folder = f.is_folder) (n : EntryId) (c : Nat) :
    SizeOk { entries := es, nextId := n, clock := c } := by
  intro e' he'
  simp only at he'
  rw [hmap] at he'
  obtain ⟨f, hf, rfl⟩ := List.mem_map.mp he'
  rw [hsz f, hfo f]
  exact hs f hf

/-- Every operation preserves the size invariant. -/
theorem sizeOk_step {s s' : Store} {op : Op} (hs : SizeOk s)
    (hok : applyOp s op = .ok s') : SizeOk s' := by
  cases op with
  | create parentId name isFolder ownerId sizeBytes mimeType storageUrl =>
    simp only [applyOp] at hok
    obtain ⟨ancNames, rfl, _⟩ := create_ok_shape hok
    intro e' he'
    rcases List.mem_append.mp he' with hmem | hmem
    · exact hs e' hmem
    · rw [List.mem_singleton] at hmem
      subst hmem
      show 0 ≤ (if isFolder then 0 else (sizeBytes.getD 0 : Nat) : Int) ∧
        (isFolder = true → (if isFolder then 0 else (sizeBytes.getD 0 : Nat) : Int) = 0)
      cases isFolder with
      | true => exact ⟨le_refl 0, fun _ => rfl⟩
      | false =>
        refine ⟨?_, fun hh => by cases hh⟩
        show (0 : Int) ≤ ((sizeBytes.getD 0 : Nat) : Int)
        exact Int.natCast_nonneg _
  | rename i n actor =>
    simp only [applyOp] at hok
    obtain ⟨e, es, he, hown, _, hes, rfl⟩ := rename_ok_shape hok
    have hmap := subtreeMap_ok hes
    rw [show (updateRow s i (setName n)).entries
        = s.entries.map (rowMod i (setName n)) from rfl, List.map_map] at hmap
    exact sizeOk_of_map hs hmap
      (fun f => (subtreeUpd_pres (updateRow s i (setName n)) i (pathUpd s.clock)
        (·.size_bytes) (fun _ _ => rfl) (rowMod i (setName n) f)).trans
        (rowMod_pres i (setName n) (·.size_bytes) (fun _ => rfl) f))
      (fun f => (subtreeUpd_pres (updateRow s i (setName n)) i (pathUpd s.clock)
        (·.is_folder) (fun _ _ => rfl) (rowMod i (setName n) f)).trans
        (rowMod_pres i (setName n) (·.is_folder) (fun _ => rfl) f))
      s.nextId (s.clock + 1)
  | move i np actor =>
    simp only [applyOp] at hok
    obtain ⟨e, es, he, hown, hes, rfl, _⟩ := move_ok_shape hok
    have hmap := subtreeMap_ok hes
    rw [show (updateRow s i (setParent np)).entries
        = s.entries.map (rowMod i (setParent np)) from rfl, List.map_map] at hmap
    exact sizeOk_of_map hs hmap
      (fun f => (subtreeUpd_pres (updateRow s i (setParent np)) i (pathUpd s.clock)
        (·.size_bytes) (fun _ _ => rfl) (rowMod i (setParent np) f)).trans
        (rowMod_pres i (setParent np) (·.size_bytes) (fun _ => rfl) f))
      (fun f => (subtreeUpd_pres (updateRow s i (setParent np)) i (pathUpd s.clock)
        (·.is_folder) (fun _ _ => rfl) (rowMod i (setParent np) f)).trans
        (rowMod_pres i (setParent np) (·.is_folder) (fun _ => rfl) f))
      s.nextId (s.clock + 1)
  | softDelete i actor =>
    simp only [applyOp] at hok
    obtain ⟨e, es, he, hown, hes, rfl⟩ := softDelete_ok_shape hok
    exact sizeOk_of_map hs (subtreeMap_ok hes)
      (subtreeUpd_pres s i (delUpd s.clock) (·.size_bytes) (fun _ _ => rfl))
      (subtreeUpd_pres s i (delUpd s.clock) (·.is_folder) (fun _ _ => rfl))
      s.nextId (s.clock + 1)
  | restore i actor =>
    simp only [applyOp] at hok
    obtain ⟨e, anc, he, hown, hw, rfl⟩ := restore_ok_shape hok
    exact sizeOk_of_map hs rfl
      (rowMod_pres i (setDeleted false s.clock) (·.size_bytes) (fun _ => rfl))
      (rowMod_pres i (setDeleted false s.clock) (·.is_folder) (fun _ => rfl))
      s.nextId (s.clock + 1)
  | star i actor st =>
    simp only [applyOp] at hok
    obtain ⟨e, he, hown, rfl⟩ := star_ok_shape hok
    exact sizeOk_of_map hs rfl
      (rowMod_pres i (setStarred st s.clock) (·.size_bytes) (fun _ => rfl))
      (rowMod_pres i (setStarred st s.clock) (·.is_folder) (fun _ => rfl))
      s.nextId (s.clock + 1)

/-- Claim C7: in every reachable state `size_bytes` is a non-negative
integer, folders have `size_bytes = 0`, and no operation changes the
`size_bytes` (or the kind flag) of an existing row — so `size_bytes`
only ever changes at file creation, never for a folder. -/
theorem size_bytes_spec (s : Store) :
    (Reachable s → ∀ e ∈ s.entries,
      0 ≤ e.size_bytes ∧ (e.is_folder = true → e.size_bytes = 0)) ∧
    (∀ op s', UniqueIds s → FreshIds s → applyOp s op = .ok s' →
      ∀ e ∈ s.entries, ∀ e' ∈ s'.entries, e'.id = e.id →
        e'.size_bytes = e.size_bytes ∧ e'.is_folder = e.is_folder) := by
  constructor
  · intro hr
    induction hr with
    | init =>
      intro e he
      cases he
    | step o hrp hok ih => exact sizeOk_step ih hok
  · intro op s' nd hfr hok
    cases op with
    | create parentId name isFolder ownerId sizeBytes mimeType storageUrl =>
      simp only [applyOp] at hok
      obtain ⟨ancNames, rfl, _⟩ := create_ok_shape hok
      intro e he e' he' hid'
      rcases List.mem_append.mp he' with hmem | hmem
      · rw [mem_id_unique nd hmem he hid']
        exact ⟨rfl, rfl⟩
      · exfalso
        rw [List.mem_singleton] at hmem
        subst hmem
        exact absurd hid' (by
          show ¬(s.nextId = e.id)
          exact fun hh => absurd hh.symm (Nat.ne_of_lt (hfr e he)))
    | rename i n actor =>
      simp only [applyOp] at hok
      obtain ⟨e₀, es, he₀, hown, _, hes, rfl⟩ := rename_ok_shape hok
      have hmap := subtreeMap_ok hes
      rw [show (updateRow s i (setName n)).entries
          = s.entries.map (rowMod i (setName n)) from rfl, List.map_map] at hmap
      intro e he e' he' hid'
      constructor
      · exact proj_preserved_of_map nd hmap
          (fun f => (subtreeUpd_pres (updateRow s i (setName n)) i (pathUpd s.clock)
            (·.id) (fun _ _ => rfl) (rowMod i (setName n) f)).trans
            (rowMod_pres i (setName n) (·.id) (fun _ => rfl) f))
          (·.size_bytes)
          (fun f => (subtreeUpd_pres (updateRow s i (setName n)) i (pathUpd s.clock)
            (·.size_bytes) (fun _ _ => rfl) (rowMod i (setName n) f)).trans
            (rowMod_pres i (setName n) (·.size_bytes) (fun _ => rfl) f))
          e he e' he' hid'
      · exact proj_preserved_of_map nd hmap
          (fun f => (subtreeUpd_pres (updateRow s i (setName n)) i (pathUpd s.clock)
            (·.id) (fun _ _ => rfl) (rowMod i (setName n) f)).trans
            (rowMod_pres i (setName n) (·.id) (fun _ => rfl) f))
          (·.is_folder)
          (fun f => (subtreeUpd_pres (updateRow s i (setName n)) i (pathUpd s.clock)
            (·.is_folder) (fun _ _ => rfl) (rowMod i (setName n) f)).trans
            (rowMod_pres i (setName n) (·.is_folder) (fun _ => rfl) f))
          e he e' he' hid'
    | move i np actor =>
      simp only [applyOp] at hok
      obtain ⟨e₀, es, he₀, hown, hes, rfl, _⟩ := move_ok_shape hok
      have hmap := subtreeMap_ok hes
      rw [show (updateRow s i (setParent np)).entries
          = s.entries.map (rowMod i (setParent np)) from rfl, List.map_map] at hmap
      intro e he e' he' hid'
      constructor
      · exact proj_preserved_of_map nd hmap
          (fun f => (subtreeUpd_pres (updateRow s i (setParent np)) i
            (pathUpd s.clock) (·.id) (fun _ _ => rfl) (rowMod i (setParent np) f)).trans
            (rowMod_pres i (setParent np) (·.id) (fun _ => rfl) f))
          (·.size_bytes)
          (fun f => (subtreeUpd_pres (updateRow s i (setParent np)) i
            (pathUpd s.clock) (·.size_bytes) (fun _ _ => rfl)
            (rowMod i (setParent np) f)).trans
            (rowMod_pres i (setParent np) (·.size_bytes) (fun _ => rfl) f))
          e he e' he' hid'
      · exact proj_preserved_of_map nd hmap
          (fun f => (subtreeUpd_pres (updateRow s i (setParent np)) i
            (pathUpd s.clock) (·.id) (fun _ _ => rfl) (rowMod i (setParent np) f)).trans
            (rowMod_pres i (setParent np) (·.id) (fun _ => rfl) f))
          (·.is_folder)
          (fun f => (subtreeUpd_pres (updateRow s i (setParent np)) i
            (pathUpd s.clock) (·.is_folder) (fun _ _ => rfl)
            (rowMod i (setParent np) f)).trans
            (rowMod_pres i (setParent np) (·.is_folder) (fun _ => rfl) f))
          e he e' he' hid'
    | softDelete i actor =>
      simp only [applyOp] at hok
      obtain ⟨e₀, es, he₀, hown, hes, rfl⟩ := softDelete_ok_shape hok
      intro e he e' he' hid'
      refine ⟨?_, ?_⟩
      · exact proj_preserved_of_map nd (subtreeMap_ok hes)
          (subtreeUpd_pres s i (delUpd s.clock) (·.id) (fun _ _ => rfl))
          (·.size_bytes)
          (subtreeUpd_pres s i (delUpd s.clock) (·.size_bytes) (fun _ _ => rfl))
          e he e' he' hid'
      · exact proj_preserved_of_map nd (subtreeMap_ok hes)
          (subtreeUpd_pres s i (delUpd s.clock) (·.id) (fun _ _ => rfl))
          (·.is_folder)
          (subtreeUpd_pres s i (delUpd s.clock) (·.is_folder) (fun _ _ => rfl))
          e he e' he' hid'
    | restore i actor =>
      simp only [applyOp] at hok
      obtain ⟨e₀, anc, he₀, hown, hw, rfl⟩ := restore_ok_shape hok
      intro e he e' he' hid'
      refine ⟨?_, ?_⟩
      · exact proj_preserved_of_map nd rfl
          (rowMod_pres i (setDeleted false s.clock) (·.id) (fun _ => rfl))
          (·.size_bytes)
          (rowMod_pres i (setDeleted false s.clock) (·.size_bytes) (fun _ => rfl))
          e he e' he' hid'
      · exact proj_preserved_of_map nd rfl
          (rowMod_pres i (setDeleted false s.clock) (·.id) (fun _ => rfl))
          (·.is_folder)
          (rowMod_pres i (setDeleted false s.clock) (·.is_folder) (fun _ => rfl))
          e he e' he' hid'
    | star i actor st =>
      simp only [applyOp] at hok
      obtain ⟨e₀, he₀, hown, rfl⟩ := star_ok_shape hok
      intro e he e' he' hid'
      refine ⟨?_, ?_⟩
      · exact proj_preserved_of_map nd rfl
          (rowMod_pres i (setStarred st s.clock) (·.id) (fun _ => rfl))
          (·.size_bytes)
          (rowMod_pres i (setStarred st s.clock) (·.size_bytes) (fun _ => rfl))
          e he e' he' hid'
      · exact proj_preserved_of_map nd rfl
          (rowMod_pres i (setStarred st s.clock) (·.id) (fun _ => rfl))
          (·.is_folder)
          (rowMod_pres i (setStarred st s.clock) (·.is_folder) (fun _ => rfl))
          e he e' he' hid'

/-- The example store after starring its file row. -/
def cStore3Star : Store :=
  { entries := [rowA, rowB, { rowF with is_starred := true, updated_at := 3 }],
    nextId := 3, clock := 4 }

/-- Witness for C7 on the concrete reachable store and a concrete
mutation. -/
theorem size_bytes_spec_witness :
    (∀ e ∈ cStore3.entries,
      0 ≤ e.size_bytes ∧ (e.is_folder = true → e.size_bytes = 0)) ∧
    (∀ e ∈ cStore3.entries, ∀ e' ∈ cStore3Star.entries, e'.id = e.id →
      e'.size_bytes = e.size_bytes ∧ e'.is_folder = e.is_folder) := by
  constructor
  · exact (size_bytes_spec cStore3).1 reachable_cStore3
  · exact (size_bytes_spec cStore3).2 (.star 2 "u" true) cStore3Star
      (by unfold UniqueIds; decide) (by unfold FreshIds; decide) rfl

/-! ### Explicit parent chains -/

/-- `ChainSeg s t b l` asserts that following `parent_id` links upward
from the optional link `b` reaches the optional link `t`, visiting
exactly the rows of `l`, top-first.  `ChainSeg s none b l` says `l` is
the full root-first ancestor chain over the link `b`. -/
inductive ChainSeg (s : Store) : Option EntryId → Option EntryId → List Entry → Prop
  | nil {t : Option EntryId} : ChainSeg s t t []
  | cons {t : Option EntryId} {p : Entry} {l : List Entry} :
      findEntry s p.id = some p → ChainSeg s t p.parent_id l →
      ChainSeg s t (some p.id) (l ++ [p])

theorem chainSeg_find {s : Store} {t q : Option EntryId} {l : List Entry}
    (h : ChainSeg s t q l) : ∀ x ∈ l, findEntry s x.id = some x := by
  induction h with
  | nil => intro x hx; cases hx
  | cons hf _ ih =>
    intro x hx
    rcases List.mem_append.mp hx with hmem | hmem
    · exact ih x hmem
    · rw [List.mem_singleton] at hmem
      subst hmem
      exact hf

theorem chainSeg_compose {s : Store} {t m b : Option EntryId} {l₁ l₂ : List Entry}
    (h₁ : ChainSeg s t m l₁) (h₂ : ChainSeg s m b l₂) :
    ChainSeg s t b (l₁ ++ l₂) := by
  induction h₂ with
  | nil => simpa using h₁
  | cons hf hsub ih =>
    rw [← List.append_assoc]
    exact ChainSeg.cons hf ih

theorem chainSeg_split_at {s : Store} :
    ∀ {b : Option EntryId} {l : List Entry}, ChainSeg s none b l →
      ∀ {x : Entry}, x ∈ l →
        ∃ l₁ l₂, l = (l₁ ++ [x]) ++ l₂ ∧
          ChainSeg s none (some x.id) (l₁ ++ [x]) ∧
          ChainSeg s (some x.id) b l₂ := by
  intro b l h
  induction h with
  | nil => intro x hx; cases hx
  | cons hf hsub ih =>
    rename_i p l₀
    intro x hx
    rcases List.mem_append.mp hx with hmem | hmem
    · obtain ⟨l₁, l₂, rfl, hseg₁, hseg₂⟩ := ih hmem
      refine ⟨l₁, l₂ ++ [p], ?_, hseg₁, ChainSeg.cons hf hseg₂⟩
      rw [← List.append_assoc]
    · rw [List.mem_singleton] at hmem
      subst hmem
      exact ⟨l₀, [], by simp, ChainSeg.cons hf hsub, ChainSeg.nil⟩

theorem chainSeg_inv {s : Store} {t b : Option EntryId} {l : List Entry}
    (h : ChainSeg s t b l) :
    (t = b ∧ l = []) ∨ ∃ p l₀, b = some p.id ∧ l = l₀ ++ [p] ∧
      findEntry s p.id = some p ∧ ChainSeg s t p.parent_id l₀ := by
  cases h with
  | nil => exact Or.inl ⟨rfl, rfl⟩
  | cons hf hsub => exact Or.inr ⟨_, _, rfl, rfl, hf, hsub⟩

theorem chainSeg_top_anc {s : Store} {a : EntryId} :
    ∀ {b : Option EntryId} {l : List Entry}, ChainSeg s (some a) b l →
      ∀ x ∈ l, IsAncestor s a x.id := by
  intro b l h
  induction h with
  | nil => intro x hx; cases hx
  | cons hf hsub ih =>
    rename_i p l₀
    intro x hx
    have hpmem := (findEntry_eq_some hf).1
    rcases List.mem_append.mp hx with hmem | hmem
    · exact ih x hmem
    · rw [List.mem_singleton] at hmem
      subst hmem
      rcases chainSeg_inv hsub with ⟨hteq, rfl⟩ | ⟨q, l₁, hbq, rfl, _, _⟩
      · exact IsAncestor.parent hpmem hteq.symm
      · exact IsAncestor.step hpmem hbq
          (ih q (List.mem_append.mpr (Or.inr (List.mem_singleton.mpr rfl))))

theorem chainSeg_none_unique {s : Store} :
    ∀ {t q : Option EntryId} {l₁ : List Entry}, ChainSeg s t q l₁ → t = none →
      ∀ {l₂ : List Entry}, ChainSeg s none q l₂ → l₁ = l₂ := by
  intro t q l₁ h₁
  induction h₁ with
  | nil =>
    intro ht l₂ h₂
    subst ht
    rcases chainSeg_inv h₂ with ⟨_, rfl⟩ | ⟨p, l₀, hb, _, _, _⟩
    · rfl
    · cases hb
  | cons hf hsub ih =>
    rename_i p l₀
    intro ht l₂ h₂
    subst ht
    rcases chainSeg_inv h₂ with ⟨hb, _⟩ | ⟨p₂, l₂', hb, rfl, hf₂, hsub₂⟩
    · cases hb
    · have hid₂ : p₂.id = p.id := (Option.some.inj hb).symm
      have hpp : p₂ = p := by
        rw [hid₂, hf] at hf₂
        exact (Option.some.inj hf₂).symm
      subst hpp
      rw [ih rfl hsub₂]

theorem chainSeg_map {s : Store} {g : Entry → Entry} (n : EntryId) (c : Nat)
    (hid : ∀ f, (g f).id = f.id) (hpar : ∀ f, (g f).parent_id = f.parent_id) :
    ∀ {t q : Option EntryId} {l : List Entry}, ChainSeg s t q l →
      ChainSeg { entries := s.entries.map g, nextId := n, clock := c } t q (l.map g) := by
  intro t q l h
  induction h with
  | nil => exact ChainSeg.nil
  | cons hf hsub ih =>
    rename_i p l₀
    rw [List.map_append]
    have hf' : findEntry { entries := s.entries.map g, nextId := n, clock := c }
        (g p).id = some (g p) := by
      rw [hid p, findEntry_map_entries hid s n c p.id, hf]
      rfl
    have hstep := ChainSeg.cons hf' (by rwa [hpar p])
    rw [hid p] at hstep
    exact hstep

theorem chainSeg_stable {s : Store} {g : Entry → Entry} {j : EntryId}
    (n : EntryId) (c : Nat) (hid : ∀ f, (g f).id = f.id)
    (hg : ∀ f, f.id ≠ j → g f = f) :
    ∀ {t q : Option EntryId} {l : List Entry}, ChainSeg s t q l →
      (∀ x ∈ l, x.id ≠ j) →
      ChainSeg { entries := s.entries.map g, nextId := n, clock := c } t q l := by
  intro t q l h
  induction h with
  | nil => intro _; exact ChainSeg.nil
  | cons hf hsub ih =>
    rename_i p l₀
    intro hnone
    have hpj : p.id ≠ j :=
      hnone p (List.mem_append.mpr (Or.inr (List.mem_singleton.mpr rfl)))
    have hf' : findEntry { entries := s.entries.map g, nextId := n, clock := c }
        p.id = some p := by
      rw [findEntry_map_entries hid s n c p.id, hf]
      show some (g p) = some p
      rw [hg p hpj]
    exact ChainSeg.cons hf'
      (ih (fun x hx => hnone x (List.mem_append.mpr (Or.inl hx))))

theorem chainSeg_of_ancWalk {s : Store} (hp : ParentOk s) :
    ∀ (fuel : Nat) (seen : List EntryId) (q : Option EntryId) (l : List Entry),
      (∀ x, q = some x → ∃ p, findEntry s x = some p) →
      ancWalk s fuel seen q = .ok l → ChainSeg s none q l := by
  intro fuel
  induction fuel with
  | zero =>
    intro seen q l hroot h
    cases q with
    | none =>
      rw [ancWalk] at h
      cases h
      exact ChainSeg.nil
    | some x => rw [ancWalk] at h; cases h
  | succ fuel ih =>
    intro seen q l hroot h
    cases q with
    | none =>
      rw [ancWalk] at h
      cases h
      exact ChainSeg.nil
    | some x =>
      rw [ancWalk] at h
      by_cases hs : x ∈ seen
      · rw [if_pos hs] at h; cases h
      · rw [if_neg hs] at h
        split at h
        · rename_i hnone
          obtain ⟨p, hfp⟩ := hroot x rfl
          rw [hfp] at hnone
          cases hnone
        · rename_i p heq
          split at h
          · cases h
          · rename_i rest hr
            cases h
            obtain ⟨hmem, hpid⟩ := findEntry_eq_some heq
            have hsub : ChainSeg s none p.parent_id rest :=
              ih (x :: seen) p.parent_id rest
                (fun y hy => by
                  obtain ⟨p₂, hf₂, _, _⟩ := parentOk_spec hp hmem hy
                  exact ⟨p₂, hf₂⟩)
                hr
            have hcons := ChainSeg.cons (t := none) (by rwa [hpid]) hsub
            rwa [hpid] at hcons

theorem ancWalk_of_chainSeg {s : Store} :
    ∀ {t q : Option EntryId} {l : List Entry}, ChainSeg s t q l → t = none →
      ∀ (fuel : Nat) (seen : List EntryId),
        (l.map (·.id)).Nodup → (∀ x ∈ l, x.id ∉ seen) → l.length ≤ fuel →
        ancWalk s fuel seen q = .ok l := by
  intro t q l h
  induction h with
  | nil =>
    intro ht fuel seen _ _ _
    subst ht
    cases fuel with
    | zero => rfl
    | succ fuel => rfl
  | cons hf hsub ih =>
    rename_i p l₀
    intro ht fuel seen hnd hseen hlen
    subst ht
    cases fuel with
    | zero =>
      exfalso
      rw [List.length_append] at hlen
      simp at hlen
    | succ fuel =>
      rw [ancWalk]
      have hpseen : p.id ∉ seen :=
        hseen p (List.mem_append.mpr (Or.inr (List.mem_singleton.mpr rfl)))
      rw [if_neg hpseen, hf]
      have hnd₀ : (l₀.map (·.id)).Nodup := by
        rw [List.map_append] at hnd
        exact (List.nodup_append.mp hnd).1
      have hdisj : p.id ∉ l₀.map (·.id) := by
        rw [List.map_append] at hnd
        intro hxin
        exact (List.nodup_append.mp hnd).2.2 hxin (by simp)
      have hrec : ancWalk s fuel (p.id :: seen) p.parent_id = .ok l₀ := by
        apply ih rfl fuel (p.id :: seen) hnd₀
        · intro x hx
          rw [List.mem_cons]
          rintro (hx1 | hx1)
          · exact hdisj (hx1 ▸ List.mem_map_of_mem (·.id) hx)
          · exact hseen x (List.mem_append.mpr (Or.inl hx)) hx1
        · rw [List.length_append] at hlen
          simp only [List.length_singleton] at hlen
          exact Nat.le_of_succ_le_succ hlen
      show (match ancWalk s fuel (p.id :: seen) p.parent_id with
        | Except.error err => Except.error err
        | Except.ok rest => Except.ok (rest ++ [p])) = Except.ok (l₀ ++ [p])
      rw [hrec]

/-- A duplicate-free list of ids drawn from the table is no longer
than the table. -/
theorem nodup_length_le {l₁ l₂ : List Nat} (nd : l₁.Nodup)
    (hsub : ∀ x ∈ l₁, x ∈ l₂) : l₁.length ≤ l₂.length := by
  calc l₁.length = l₁.toFinset.card := (List.toFinset_card_of_nodup nd).symm
    _ ≤ l₂.toFinset.card := Finset.card_le_card
        (fun x hx => List.mem_toFinset.mpr (hsub x (List.mem_toFinset.mp hx)))
    _ ≤ l₂.length := l₂.toFinset_card_le

/-! ### Map transfer of the invariants -/

theorem parentOk_of_map {s : Store} {g : Entry → Entry} (n : EntryId) (c : Nat)
    (hid : ∀ f, (g f).id = f.id) (hfold : ∀ f, (g f).is_folder = f.is_folder)
    (hown : ∀ f, (g f).owner_id = f.owner_id)
    (hpar : ∀ f, (g f).parent_id = f.parent_id) (hp : ParentOk s) :
    ParentOk { entries := s.entries.map g, nextId := n, clock := c } := by
  intro x hx
  simp only at hx
  obtain ⟨f, hf, rfl⟩ := List.mem_map.mp hx
  rw [parentOkB_map_store n c hid hfold hown]
  rw [parentOkB_row_congr (hpar (f := f)) (hown f)]
  exact hp f hf

theorem acyclic_of_map {s : Store} {g : Entry → Entry} (n : EntryId) (c : Nat)
    (hid : ∀ f, (g f).id = f.id) (hpar : ∀ f, (g f).parent_id = f.parent_id)
    (ha : AcyclicOk s) :
    ∀ x ∈ ({ entries := s.entries.map g, nextId := n, clock := c } : Store).entries,
      ∃ anc, ancWalk { entries := s.entries.map g, nextId := n, clock := c }
        maxDepth [x.id] x.parent_id = .ok anc := by
  intro x hx
  simp only at hx
  obtain ⟨f, hf, rfl⟩ := List.mem_map.mp hx
  obtain ⟨anc, hw⟩ := acyclic_spec ha hf
  refine ⟨anc.map g, ?_⟩
  rw [hid f, hpar f]
  rw [ancWalk_map hpar (fun y => findEntry_map_entries hid s n c y)
    maxDepth [f.id] f.parent_id]
  rw [hw]
  rfl

/-- Appending one more ancestor name extends the materialized path by
one separated segment. -/
theorem mkPath_append (A : List String) (b nm : String) :
    mkPath (A ++ [b]) nm = mkPath A b ++ ("/" ++ nm) := by
  induction A with
  | nil => rfl
  | cons a rest ih =>
    show "/" ++ a ++ mkPath (rest ++ [b]) nm = "/" ++ a ++ mkPath rest b ++ ("/" ++ nm)
    rw [ih]
    simp only [String.append_assoc]

/-! ### Acyclicity consequences used by the reparent proof -/

/-- On an acyclic table no entry is its own strict ancestor. -/
theorem no_self_ancestor {s : Store} (nd : UniqueIds s) (ha : AcyclicOk s)
    {i : EntryId} {e : Entry} (he : findEntry s i = some e) : ¬IsAncestor s i i := by
  intro hanc
  obtain ⟨hmem, hide⟩ := findEntry_eq_some he
  obtain ⟨anc, hw⟩ := acyclic_spec ha hmem
  have hw' : ancWalk s maxDepth [i] e.parent_id = .ok anc := by
    rw [← hide]
    exact hw
  have hein : e ∈ anc := ancestor_in_walk nd he hw' i e he hanc
  obtain ⟨_, hseen, _, _⟩ := ancWalk_ok_spec maxDepth [i] e.parent_id anc hw'
  exact hseen i (List.mem_singleton.mpr rfl) (hide ▸ List.mem_map_of_mem (·.id) hein)

/-- A row absent from another row's successful ancestor walk is not an
ancestor of it — lets a concrete walk refute the ancestor relation. -/
theorem not_ancestor_of_walk {s : Store} (nd : UniqueIds s) {j : EntryId} {p : Entry}
    (hfp : findEntry s j = some p) {anc : List Entry}
    (hw : ancWalk s maxDepth [j] p.parent_id = .ok anc)
    {a : EntryId} {ea : Entry} (hfa : findEntry s a = some ea)
    (hnot : ea ∉ anc) : ¬IsAncestor s a j :=
  fun hanc => hnot (ancestor_in_walk nd hfp hw a ea hfa hanc)

/-- Packaging of `ancWalk_of_chainSeg` for the bounded walk actually
run by the Entry Store: a duplicate-free rooted chain short enough for
the fuel is exactly what the defensive walk returns. -/
theorem walk_of_chain {s : Store} {q : Option EntryId} {l : List Entry} (j : EntryId)
    (h : ChainSeg s none q l) (hnd : (l.map (·.id)).Nodup)
    (hj : ∀ x ∈ l, x.id ≠ j) (hlen : l.length ≤ maxDepth) :
    ancWalk s maxDepth [j] q = .ok l :=
  ancWalk_of_chainSeg h rfl maxDepth [j] hnd
    (fun x hx => by
      rw [List.mem_singleton]
      exact hj x hx) hlen

/-- Appending one fresh row keeps the id projection duplicate-free. -/
theorem nodup_ids_append_one {l : List Entry} {x : Entry}
    (hnd : (l.map (·.id)).Nodup) (hx : ∀ y ∈ l, y.id ≠ x.id) :
    ((l ++ [x]).map (·.id)).Nodup := by
  rw [List.map_append]
  simp only [List.map_cons, List.map_nil]
  rw [List.nodup_append]
  refine ⟨hnd, List.nodup_singleton _, ?_⟩
  intro a ha hmem
  rw [List.mem_singleton] at hmem
  obtain ⟨y, hy, rfl⟩ := List.mem_map.mp ha
  exact hx y hy hmem

/-- The path cascade never touches display names. -/
theorem map_name_subtreeUpd (s : Store) (rootId : EntryId)
    (upd : Entry → List Entry → Entry) (hupd : ∀ f anc, (upd f anc).name = f.name)
    (l : List Entry) :
    (l.map (subtreeUpd s rootId upd)).map (fun x => x.name)
      = l.map (fun x => x.name) := by
  induction l with
  | nil => rfl
  | cons a rest ih =>
    simp only [List.map_cons, ih]
    rw [subtreeUpd_pres s rootId upd (fun x => x.name) hupd a]

/-- A row's materialized path agrees with the Path Resolver: some
rooted parent chain of the row exists in the store and the stored
`path` is exactly `resolvePath` of the chain's names. -/
def PathConsistent (s : Store) (f : Entry) : Prop :=
  ∃ l, ChainSeg s none f.parent_id l ∧ f.path = mkPath (l.map (·.name)) f.name

/-- Claim C1: `move` fails with `CycleDetected` when the new parent is
the entry itself or any descendant of it; for every other target that
is an existing folder owned by the actor it succeeds on a well-formed
store, updates the entry's `parent_id`, and recomputes the materialized
path of the entry and of every descendant from their new ancestor
chains. -/
theorem move_spec (s : Store) (i pid : EntryId) (actor : String) (e : Entry)
    (nd : UniqueIds s) (hp : ParentOk s) (ha : AcyclicOk s)
    (hlen : s.entries.length ≤ maxDepth)
    (he : findEntry s i = some e) (hown : e.owner_id = actor) :
    move s i (some i) actor = .error .CycleDetected ∧
    (IsAncestor s i pid → move s i (some pid) actor = .error .CycleDetected) ∧
    (∀ p, findEntry s pid = some p → p.is_folder = true → p.owner_id = actor →
      pid ≠ i → ¬IsAncestor s i pid →
      ∃ s', move s i (some pid) actor = .ok s' ∧
        (∃ e', findEntry s' i = some e' ∧ e'.parent_id = some pid ∧
          PathConsistent s' e') ∧
        ∀ c ∈ s.entries, IsAncestor s i c.id →
          ∃ c' ∈ s'.entries, c'.id = c.id ∧ c'.parent_id = c.parent_id ∧
            PathConsistent s' c') := by
  obtain ⟨hmem, hide⟩ := findEntry_eq_some he
  have hnotne : ¬(e.owner_id ≠ actor) := fun hh => hh hown
  refine ⟨?_, ?_, ?_⟩
  · simp only [move, he]
    rw [if_neg hnotne, if_pos trivial]
  · intro hanc
    by_cases hpi : pid = i
    · subst hpi
      simp only [move, he]
      rw [if_neg hnotne, if_pos trivial]
    · obtain ⟨e₂, hmem₂, hid₂, _, _, _⟩ := hanc.inv
      have hfe₂ : findEntry s pid = some e₂ := by
        have hf := findEntry_of_mem nd hmem₂
        rwa [hid₂] at hf
      simp only [move, he, hfe₂]
      rw [if_neg hnotne, if_neg hpi]
      split
      · rename_i err hw
        rw [ancWalk_error maxDepth [pid] e₂.parent_id err hw]
      · rename_i anc hw
        have hin : e ∈ anc := ancestor_in_walk nd hfe₂ hw i e he hanc
        have hany : anc.any (fun a => a.id == i) = true :=
          List.any_eq_true.mpr ⟨e, hin, by simp [hide]⟩
        rw [if_pos hany]
  · intro p hfp hpf hpo hne hnanc
    obtain ⟨hpmem, hpid⟩ := findEntry_eq_some hfp
    have hnself : ¬IsAncestor s i i := no_self_ancestor nd ha he
    obtain ⟨ancP, hwp0⟩ := acyclic_spec ha hpmem
    have hPanc : ∀ x ∈ ancP, IsAncestor s x.id pid := by
      intro x hx
      have hxa := anc_mem_isAncestor hpmem hwp0 hx
      rwa [hpid] at hxa
    have hwp : ancWalk s maxDepth [pid] p.parent_id = .ok ancP := by
      rw [← hpid]
      exact hwp0
    obtain ⟨hPnd, hPseen, hPlen, hPfind⟩ :=
      ancWalk_ok_spec maxDepth [pid] p.parent_id ancP hwp
    have hPne_i : ∀ x ∈ ancP ++ [p], x.id ≠ i := by
      intro x hx hxi
      rcases List.mem_append.mp hx with hxm | hxm
      · exact hnanc (hxi ▸ hPanc x hxm)
      · rw [List.mem_singleton] at hxm
        subst hxm
        exact hne (hpid.symm.trans hxi)
    have hchainP : ChainSeg s none p.parent_id ancP :=
      chainSeg_of_ancWalk hp maxDepth [pid] p.parent_id ancP
        (fun y hy => by
          obtain ⟨p₂, hf₂, _, _⟩ := parentOk_spec hp hpmem hy
          exact ⟨p₂, hf₂⟩) hwp
    have hchainPid : ChainSeg s none (some pid) (ancP ++ [p]) := by
      have hfpp : findEntry s p.id = some p := by
        rw [hpid]
        exact hfp
      have hcons := ChainSeg.cons (t := none) hfpp hchainP
      rwa [hpid] at hcons
    have hgid : ∀ f, (rowMod i (setParent (some pid)) f).id = f.id :=
      rowMod_pres i (setParent (some pid)) (fun x => x.id) (fun _ => rfl)
    have hgpar_ne : ∀ f, f.id ≠ i → rowMod i (setParent (some pid)) f = f := by
      intro f hf
      unfold rowMod
      rw [if_neg (by simp [hf])]
    have he₁ : rowMod i (setParent (some pid)) e = setParent (some pid) e := by
      unfold rowMod
      rw [if_pos (by simp [hide])]
    have h1 : (rowMod i (setParent (some pid)) e).id = i := (hgid e).trans hide
    have h2 : (rowMod i (setParent (some pid)) e).parent_id = some pid := by
      rw [he₁]
      rfl
    have hchainPid₁ : ChainSeg (updateRow s i (setParent (some pid))) none (some pid)
        (ancP ++ [p]) :=
      chainSeg_stable s.nextId s.clock hgid hgpar_ne hchainPid hPne_i
    have hfind₁ : findEntry (updateRow s i (setParent (some pid))) i
        = some (rowMod i (setParent (some pid)) e) := by
      rw [updateRow_eq s i (setParent (some pid))]
      rw [findEntry_map_entries hgid s s.nextId s.clock i, he]
      rfl
    have hchainE₁ : ChainSeg (updateRow s i (setParent (some pid))) none (some i)
        ((ancP ++ [p]) ++ [rowMod i (setParent (some pid)) e]) := by
      have hf₁ : findEntry (updateRow s i (setParent (some pid)))
          (rowMod i (setParent (some pid)) e).id
          = some (rowMod i (setParent (some pid)) e) := by
        rw [h1]
        exact hfind₁
      have hcons := ChainSeg.cons (t := none) hf₁ (by rw [h2]; exact hchainPid₁)
      rwa [h1] at hcons
    have hpid_notin : pid ∉ ancP.map (·.id) :=
      hPseen pid (List.mem_singleton.mpr rfl)
    have hPp : ∀ y ∈ ancP, y.id ≠ p.id := by
      intro y hy hyp
      exact hpid_notin (by
        rw [← hpid, ← hyp]
        exact List.mem_map_of_mem (·.id) hy)
    have hndP1 : ((ancP ++ [p]).map (·.id)).Nodup := nodup_ids_append_one hPnd hPp
    have hBe : ∀ y ∈ ancP ++ [p], y.id ≠ (rowMod i (setParent (some pid)) e).id := by
      intro y hy hye
      exact hPne_i y hy (by rw [hye, hgid e, hide])
    have hndB : (((ancP ++ [p]) ++ [rowMod i (setParent (some pid)) e]).map
        (·.id)).Nodup := nodup_ids_append_one hndP1 hBe
    have hsubP1 : ∀ a ∈ (ancP ++ [p]).map (·.id), a ∈ s.entries.map (·.id) := by
      intro a ha
      obtain ⟨y, hy, rfl⟩ := List.mem_map.mp ha
      rcases List.mem_append.mp hy with hy1 | hy1
      · exact List.mem_map_of_mem (·.id) (findEntry_eq_some (hPfind y hy1)).1
      · rw [List.mem_singleton] at hy1
        subst hy1
        exact List.mem_map_of_mem (·.id) hpmem
    have hlenP1 : (ancP ++ [p]).length ≤ maxDepth := by
      have hle := nodup_length_le hndP1 hsubP1
      rw [List.length_map, List.length_map] at hle
      exact le_trans hle hlen
    have hwE₁ : ancWalk (updateRow s i (setParent (some pid))) maxDepth [i] (some pid)
        = .ok (ancP ++ [p]) :=
      walk_of_chain i hchainPid₁ hndP1 hPne_i hlenP1
    have hsubB : ∀ a ∈ ((ancP ++ [p]) ++ [rowMod i (setParent (some pid)) e]).map
        (·.id), a ∈ s.entries.map (·.id) := by
      intro a ha
      obtain ⟨y, hy, rfl⟩ := List.mem_map.mp ha
      rcases List.mem_append.mp hy with hy1 | hy1
      · exact hsubP1 _ (List.mem_map_of_mem (·.id) hy1)
      · rw [List.mem_singleton] at hy1
        subst hy1
        rw [hgid e]
        exact List.mem_map_of_mem (·.id) hmem
    have hDesc : ∀ c ∈ s.entries, c.id ≠ i → IsAncestor s i c.id →
        ∃ L, ChainSeg (updateRow s i (setParent (some pid))) none c.parent_id L ∧
          ancWalk (updateRow s i (setParent (some pid))) maxDepth [c.id] c.parent_id
            = .ok L ∧ rowMod i (setParent (some pid)) e ∈ L := by
      intro c hc hci hdesc
      obtain ⟨ancC, hwc⟩ := acyclic_spec ha hc
      obtain ⟨hCnd, hCseen, hClen, hCfind⟩ :=
        ancWalk_ok_spec maxDepth [c.id] c.parent_id ancC hwc
      have hchainC : ChainSeg s none c.parent_id ancC :=
        chainSeg_of_ancWalk hp maxDepth [c.id] c.parent_id ancC
          (fun y hy => by
            obtain ⟨p₂, hf₂, _, _⟩ := parentOk_spec hp hc hy
            exact ⟨p₂, hf₂⟩) hwc
      have hein : e ∈ ancC :=
        ancestor_in_walk nd (findEntry_of_mem nd hc) hwc i e he hdesc
      obtain ⟨l₁, l₂, hsplit, hseg₁, hseg₂⟩ := chainSeg_split_at hchainC hein
      have hseg₂i : ChainSeg s (some i) c.parent_id l₂ := by
        rw [← hide]
        exact hseg₂
      have hl₂anc : ∀ x ∈ l₂, IsAncestor s i x.id := chainSeg_top_anc hseg₂i
      have hl₂ne_i : ∀ x ∈ l₂, x.id ≠ i := fun x hx hxi =>
        hnself (hxi ▸ hl₂anc x hx)
      have hchainl₂ : ChainSeg (updateRow s i (setParent (some pid))) (some i)
          c.parent_id l₂ :=
        chainSeg_stable s.nextId s.clock hgid hgpar_ne hseg₂i hl₂ne_i
      have hCnd₂ : (((l₁ ++ [e]) ++ l₂).map (·.id)).Nodup := hsplit ▸ hCnd
      have hndl₂ : (l₂.map (·.id)).Nodup := by
        rw [List.map_append] at hCnd₂
        exact (List.nodup_append.mp hCnd₂).2.1
      have hBl₂ : ∀ y ∈ (ancP ++ [p]) ++ [rowMod i (setParent (some pid)) e],
          ∀ x ∈ l₂, y.id ≠ x.id := by
        intro y hy x hx hxy
        rcases List.mem_append.mp hy with hy1 | hy1
        · rcases List.mem_append.mp hy1 with hy2 | hy2
          · exact hnanc (IsAncestor.trans (hl₂anc x hx) (hxy ▸ hPanc y hy2))
          · rw [List.mem_singleton] at hy2
            subst hy2
            exact hnanc (hpid ▸ hxy.symm ▸ hl₂anc x hx)
        · rw [List.mem_singleton] at hy1
          subst hy1
          exact hl₂ne_i x hx (by rw [← hxy, hgid e, hide])
      have hndC : ((((ancP ++ [p]) ++ [rowMod i (setParent (some pid)) e]) ++ l₂).map
          (·.id)).Nodup := by
        rw [List.map_append]
        rw [List.nodup_append]
        refine ⟨hndB, hndl₂, ?_⟩
        intro a ha hamem
        obtain ⟨y, hy, rfl⟩ := List.mem_map.mp ha
        obtain ⟨x, hx, hxid⟩ := List.mem_map.mp hamem
        exact hBl₂ y hy x hx hxid.symm
      have hCne_c : ∀ x ∈ ((ancP ++ [p]) ++ [rowMod i (setParent (some pid)) e]) ++ l₂,
          x.id ≠ c.id := by
        intro x hx hxc
        rcases List.mem_append.mp hx with hx1 | hx1
        · rcases List.mem_append.mp hx1 with hx2 | hx2
          · rcases List.mem_append.mp hx2 with hx3 | hx3
            · exact hnanc (IsAncestor.trans hdesc (hxc ▸ hPanc x hx3))
            · rw [List.mem_singleton] at hx3
              subst hx3
              exact hnanc (hpid ▸ hxc.symm ▸ hdesc)
          · rw [List.mem_singleton] at hx2
            subst hx2
            exact hci (by rw [← hxc, hgid e, hide])
        · have hxC : x ∈ ancC := by
            rw [hsplit]
            exact List.mem_append.mpr (Or.inr hx1)
          exact hCseen c.id (List.mem_singleton.mpr rfl)
            (hxc ▸ List.mem_map_of_mem (·.id) hxC)
      have hsubC : ∀ a ∈ (((ancP ++ [p]) ++ [rowMod i (setParent (some pid)) e])
          ++ l₂).map (·.id), a ∈ s.entries.map (·.id) := by
        intro a ha
        obtain ⟨y, hy, rfl⟩ := List.mem_map.mp ha
        rcases List.mem_append.mp hy with hy1 | hy1
        · exact hsubB _ (List.mem_map_of_mem (·.id) hy1)
        · have hyC : y ∈ ancC := by
            rw [hsplit]
            exact List.mem_append.mpr (Or.inr hy1)
          exact List.mem_map_of_mem (·.id) (findEntry_eq_some (hCfind y hyC)).1
      have hlenC : (((ancP ++ [p]) ++ [rowMod i (setParent (some pid)) e])
          ++ l₂).length ≤ maxDepth := by
        have hle := nodup_length_le hndC hsubC
        rw [List.length_map, List.length_map] at hle
        exact le_trans hle hlen
      refine ⟨((ancP ++ [p]) ++ [rowMod i (setParent (some pid)) e]) ++ l₂,
        chainSeg_compose hchainE₁ hchainl₂, ?_, ?_⟩
      · exact walk_of_chain c.id (chainSeg_compose hchainE₁ hchainl₂) hndC hCne_c hlenC
      · exact List.mem_append.mpr (Or.inl (List.mem_append.mpr
          (Or.inr (List.mem_singleton.mpr rfl))))
    have hwalks₁ : ∀ y ∈ (updateRow s i (setParent (some pid))).entries,
        ∃ anc, ancWalk (updateRow s i (setParent (some pid))) maxDepth [y.id]
          y.parent_id = .ok anc := by
      intro y hy
      rw [updateRow_eq s i (setParent (some pid))] at hy
      simp only at hy
      obtain ⟨c, hc, rfl⟩ := List.mem_map.mp hy
      by_cases hcieq : c.id = i
      · have hce : c = e := mem_id_unique nd hc hmem (hcieq.trans hide.symm)
        refine ⟨ancP ++ [p], ?_⟩
        rw [hgid c, hcieq]
        have hparc : (rowMod i (setParent (some pid)) c).parent_id = some pid := by
          rw [hce, he₁]
          rfl
        rw [hparc]
        exact hwE₁
      · have hgc : rowMod i (setParent (some pid)) c = c := hgpar_ne c hcieq
        rw [hgc]
        by_cases hdesc : IsAncestor s i c.id
        · obtain ⟨L, _, hLwalk, _⟩ := hDesc c hc hcieq hdesc
          exact ⟨L, hLwalk⟩
        · obtain ⟨ancC, hwc⟩ := acyclic_spec ha hc
          obtain ⟨hCnd, hCseen, hClen, _⟩ :=
            ancWalk_ok_spec maxDepth [c.id] c.parent_id ancC hwc
          have hchainC : ChainSeg s none c.parent_id ancC :=
            chainSeg_of_ancWalk hp maxDepth [c.id] c.parent_id ancC
              (fun z hz => by
                obtain ⟨p₂, hf₂, _, _⟩ := parentOk_spec hp hc hz
                exact ⟨p₂, hf₂⟩) hwc
          have hCne_i : ∀ x ∈ ancC, x.id ≠ i := fun x hx hxi =>
            hdesc (hxi ▸ anc_mem_isAncestor hc hwc hx)
          have hchainC₁ : ChainSeg (updateRow s i (setParent (some pid))) none
              c.parent_id ancC :=
            chainSeg_stable s.nextId s.clock hgid hgpar_ne hchainC hCne_i
          refine ⟨ancC, walk_of_chain c.id hchainC₁ hCnd ?_ hClen⟩
          intro x hx hxc
          exact hCseen c.id (List.mem_singleton.mpr rfl)
            (hxc ▸ List.mem_map_of_mem (·.id) hx)
    obtain ⟨es, hes⟩ : ∃ es, subtreeMap (updateRow s i (setParent (some pid))) i
        (pathUpd s.clock) (updateRow s i (setParent (some pid))).entries = .ok es :=
      subtreeMap_isOk hwalks₁
    have hmap : es = (updateRow s i (setParent (some pid))).entries.map
        (subtreeUpd (updateRow s i (setParent (some pid))) i (pathUpd s.clock)) :=
      subtreeMap_ok hes
    have hsubid : ∀ f, (subtreeUpd (updateRow s i (setParent (some pid))) i
        (pathUpd s.clock) f).id = f.id :=
      subtreeUpd_pres (updateRow s i (setParent (some pid))) i (pathUpd s.clock)
        (fun x => x.id) (fun _ _ => rfl)
    have hsubpar : ∀ f, (subtreeUpd (updateRow s i (setParent (some pid))) i
        (pathUpd s.clock) f).parent_id = f.parent_id :=
      subtreeUpd_pres (updateRow s i (setParent (some pid))) i (pathUpd s.clock)
        (fun x => x.parent_id) (fun _ _ => rfl)
    have hvalE : subtreeUpd (updateRow s i (setParent (some pid))) i (pathUpd s.clock)
        (rowMod i (setParent (some pid)) e)
        = pathUpd s.clock (rowMod i (setParent (some pid)) e) (ancP ++ [p]) := by
      unfold subtreeUpd
      rw [h1, h2]
      simp only [hwE₁]
      rw [if_pos (by simp)]
    refine ⟨{ entries := es, nextId := s.nextId, clock := s.clock + 1 }, ?_, ?_, ?_⟩
    · simp only [move, he, hfp]
      rw [if_neg hnotne, if_neg hne]
      split
      · rename_i err hw
        rw [hwp] at hw
        cases hw
      · rename_i anc hw
        rw [hwp] at hw
        have hanc : ancP = anc := Except.ok.inj hw
        subst hanc
        have hanyP : ancP.any (fun a => a.id == i) = false := by
          rw [List.any_eq_false]
          intro x hx hxi
          exact hPne_i x (List.mem_append.mpr (Or.inl hx)) (eq_of_beq hxi)
        have hnotany : ¬(ancP.any (fun a => a.id == i) = true) := by
          rw [hanyP]
          decide
        have hvp : ¬(p.owner_id ≠ actor ∨ p.is_folder = false) := by
          rw [hpo, hpf]
          simp
        rw [if_neg hnotany, if_neg hvp]
        unfold move.commitMove
        dsimp only
        rw [hes]
    · refine ⟨pathUpd s.clock (rowMod i (setParent (some pid)) e) (ancP ++ [p]),
        ?_, ?_, ?_⟩
      · rw [show ({ entries := es, nextId := s.nextId, clock := s.clock + 1 } : Store)
            = { entries := (updateRow s i (setParent (some pid))).entries.map
                  (subtreeUpd (updateRow s i (setParent (some pid))) i
                    (pathUpd s.clock)),
                nextId := s.nextId, clock := s.clock + 1 } by rw [← hmap]]
        rw [findEntry_map_entries hsubid (updateRow s i (setParent (some pid)))
          s.nextId (s.clock + 1) i, hfind₁]
        simp only [Option.map]
        rw [hvalE]
      · exact h2
      · rw [hmap]
        refine ⟨(ancP ++ [p]).map (subtreeUpd (updateRow s i (setParent (some pid))) i
          (pathUpd s.clock)), ?_, ?_⟩
        · rw [show (pathUpd s.clock (rowMod i (setParent (some pid)) e)
              (ancP ++ [p])).parent_id = some pid from h2]
          exact chainSeg_map s.nextId (s.clock + 1) hsubid hsubpar hchainPid₁
        · rw [map_name_subtreeUpd (updateRow s i (setParent (some pid))) i
            (pathUpd s.clock) (fun _ _ => rfl) (ancP ++ [p])]
          rfl
    · intro c hc hdesc
      have hci : c.id ≠ i := fun hcieq => hnself (hcieq ▸ hdesc)
      obtain ⟨L, hLchain, hLwalk, hLe⟩ := hDesc c hc hci hdesc
      have hgc : rowMod i (setParent (some pid)) c = c := hgpar_ne c hci
      have hvalC : subtreeUpd (updateRow s i (setParent (some pid))) i
          (pathUpd s.clock) c = pathUpd s.clock c L := by
        unfold subtreeUpd
        simp only [hLwalk]
        rw [if_pos ?_]
        apply Bool.or_eq_true_iff.mpr
        right
        rw [List.any_eq_true]
        exact ⟨rowMod i (setParent (some pid)) e, hLe, by simp [h1]⟩
      refine ⟨pathUpd s.clock c L, ?_, ?_, ?_, ?_⟩
      · show pathUpd s.clock c L ∈ es
        rw [hmap, ← hvalC]
        have hcmem₁ : c ∈ (updateRow s i (setParent (some pid))).entries := by
          rw [updateRow_eq s i (setParent (some pid))]
          have hm := List.mem_map_of_mem (rowMod i (setParent (some pid))) hc
          rwa [hgc] at hm
        exact List.mem_map_of_mem _ hcmem₁
      · rfl
      · rfl
      · rw [hmap]
        refine ⟨L.map (subtreeUpd (updateRow s i (setParent (some pid))) i
          (pathUpd s.clock)), ?_, ?_⟩
        · exact chainSeg_map s.nextId (s.clock + 1) hsubid hsubpar hLchain
        · rw [map_name_subtreeUpd (updateRow s i (setParent (some pid))) i
            (pathUpd s.clock) (fun _ _ => rfl) L]
          rfl

/-- Witness for C1 on the concrete three-row store /A/B/f: moving "A"
under itself and under its descendant "B" is rejected with
`CycleDetected`, while moving the file "f" under the folder "B" (a
valid non-descendant target) succeeds with the reparenting and path
recomputation properties. -/
theorem move_spec_witness :
    move tStore 0 (some 0) "u" = .error .CycleDetected ∧
    move tStore 0 (some 1) "u" = .error .CycleDetected ∧
    ∃ s', move tStore 2 (some 1) "u" = .ok s' ∧
      (∃ e', findEntry s' 2 = some e' ∧ e'.parent_id = some 1 ∧
        PathConsistent s' e') ∧
      ∀ c ∈ tStore.entries, IsAncestor tStore 2 c.id →
        ∃ c' ∈ s'.entries, c'.id = c.id ∧ c'.parent_id = c.parent_id ∧
          PathConsistent s' c' := by
  have nd : UniqueIds tStore := by unfold UniqueIds; decide
  have hp : ParentOk tStore := by unfold ParentOk; decide
  have ha : AcyclicOk tStore := by unfold AcyclicOk; decide
  have hlen : tStore.entries.length ≤ maxDepth := by decide
  have h₁ := move_spec tStore 0 1 "u" tA nd hp ha hlen rfl rfl
  have h₂ := move_spec tStore 2 1 "u" tF nd hp ha hlen rfl rfl
  refine ⟨h₁.1, h₁.2.1 (IsAncestor.parent (e := tB)
    (List.Mem.tail _ (List.Mem.head _)) rfl), ?_⟩
  have hfj : findEntry tStore 1 = some tB := rfl
  have hwB : ancWalk tStore maxDepth [1] tB.parent_id = .ok [tA] := rfl
  have hfa : findEntry tStore 2 = some tF := rfl
  have hnotmem : tF ∉ [tA] := by decide
  exact h₂.2.2 tB rfl rfl rfl (by decide)
    (not_ancestor_of_walk nd hfj hwB hfa hnotmem)

/-! ### Transfer of ids and ancestry through row-preserving maps -/

/-- Id-preserving row maps keep primary keys duplicate-free. -/
theorem uniqueIds_map {s : Store} {g : Entry → Entry} (n : EntryId) (c : Nat)
    (hid : ∀ f, (g f).id = f.id) (nd : UniqueIds s) :
    UniqueIds { entries := s.entries.map g, nextId := n, clock := c } := by
  show ((s.entries.map g).map (·.id)).Nodup
  rw [List.map_map]
  have hcomp : ((fun x => x.id) ∘ g) = (fun x : Entry => x.id) := funext hid
  rw [hcomp]
  exact nd

/-- The ancestor relation is preserved by maps that keep every row's id
and parent link. -/
theorem isAncestor_map {s : Store} {g : Entry → Entry} (n : EntryId) (c : Nat)
    (hid : ∀ f, (g f).id = f.id) (hpar : ∀ f, (g f).parent_id = f.parent_id)
    {a b : EntryId} (h : IsAncestor s a b) :
    IsAncestor { entries := s.entries.map g, nextId := n, clock := c } a b := by
  induction h with
  | parent hmem hpp =>
    rename_i x y
    have hm : g x ∈ ({ entries := s.entries.map g, nextId := n, clock := c } :
        Store).entries := List.mem_map_of_mem g hmem
    have hstep := IsAncestor.parent hm (by rw [hpar x]; exact hpp)
    rwa [hid x] at hstep
  | step hmem hpp hsub ih =>
    rename_i z x y
    have hm : g z ∈ ({ entries := s.entries.map g, nextId := n, clock := c } :
        Store).entries := List.mem_map_of_mem g hmem
    have hstep := IsAncestor.step hm (by rw [hpar z]; exact hpp) ih
    rwa [hid z] at hstep

/-- Claim C5: `rename` rejects the empty name with `InvalidName`; with
a non-empty name it succeeds on a well-formed store, renames the
entry, and recomputes the materialized path of the renamed entry and
of every descendant from their actual ancestor chains in the new store
(chains that carry the new name), so that in particular every child's
path extends the renamed entry's new path. -/
theorem rename_spec (s : Store) (i : EntryId) (nm actor : String) (e : Entry)
    (nd : UniqueIds s) (hp : ParentOk s) (ha : AcyclicOk s)
    (he : findEntry s i = some e) (hown : e.owner_id = actor) :
    rename s i "" actor = .error .InvalidName ∧
    (nm ≠ "" → ∃ s', rename s i nm actor = .ok s' ∧
      ∃ e', findEntry s' i = some e' ∧ e'.name = nm ∧ PathConsistent s' e' ∧
        (∀ c ∈ s.entries, IsAncestor s i c.id →
          ∃ c' ∈ s'.entries, c'.id = c.id ∧ c'.name = c.name ∧
            PathConsistent s' c') ∧
        ∀ c' ∈ s'.entries, c'.parent_id = some i →
          ∃ t, c'.path = e'.path ++ t) := by
  obtain ⟨hmem, hide⟩ := findEntry_eq_some he
  have hnotne : ¬(e.owner_id ≠ actor) := fun hh => hh hown
  constructor
  · simp only [rename, he]
    rw [if_neg hnotne, if_pos trivial]
  · intro hnm
    have hid₀ : ∀ f, (rowMod i (setName nm) f).id = f.id :=
      rowMod_pres i (setName nm) (·.id) (fun _ => rfl)
    have hpar₀ : ∀ f, (rowMod i (setName nm) f).parent_id = f.parent_id :=
      rowMod_pres i (setName nm) (·.parent_id) (fun _ => rfl)
    have hp₁ : ParentOk (updateRow s i (setName nm)) :=
      parentOk_of_map s.nextId s.clock hid₀
        (rowMod_pres i (setName nm) (·.is_folder) (fun _ => rfl))
        (rowMod_pres i (setName nm) (·.owner_id) (fun _ => rfl))
        hpar₀ hp
    have nd₁ : UniqueIds (updateRow s i (setName nm)) :=
      uniqueIds_map s.nextId s.clock hid₀ nd
    have hwalks₁ : ∀ x ∈ (updateRow s i (setName nm)).entries,
        ∃ anc, ancWalk (updateRow s i (setName nm)) maxDepth [x.id] x.parent_id
          = .ok anc :=
      acyclic_of_map s.nextId s.clock hid₀ hpar₀ ha
    obtain ⟨es, hes⟩ : ∃ es, subtreeMap (updateRow s i (setName nm)) i
        (pathUpd s.clock) (updateRow s i (setName nm)).entries = .ok es :=
      subtreeMap_isOk hwalks₁
    have hmap : es = (updateRow s i (setName nm)).entries.map
        (subtreeUpd (updateRow s i (setName nm)) i (pathUpd s.clock)) :=
      subtreeMap_ok hes
    have hfind₁ : findEntry (updateRow s i (setName nm)) i
        = some (rowMod i (setName nm) e) := by
      rw [updateRow_eq s i (setName nm)]
      rw [findEntry_map_entries hid₀ s s.nextId s.clock i, he]
      rfl
    have he₁id : (rowMod i (setName nm) e).id = i := (hid₀ e).trans hide
    have he₁name : (rowMod i (setName nm) e).name = nm := by
      unfold rowMod
      rw [if_pos (by simp [hide])]
      rfl
    have he₁mem : rowMod i (setName nm) e ∈ (updateRow s i (setName nm)).entries :=
      List.mem_map_of_mem _ hmem
    obtain ⟨ae, hwe⟩ := subtreeMap_ok_walks hes _ he₁mem
    have gid : ∀ f, (subtreeUpd (updateRow s i (setName nm)) i (pathUpd s.clock) f).id
        = f.id :=
      subtreeUpd_pres (updateRow s i (setName nm)) i (pathUpd s.clock) (·.id)
        (fun _ _ => rfl)
    have gpar : ∀ f, (subtreeUpd (updateRow s i (setName nm)) i
        (pathUpd s.clock) f).parent_id = f.parent_id :=
      subtreeUpd_pres (updateRow s i (setName nm)) i (pathUpd s.clock) (·.parent_id)
        (fun _ _ => rfl)
    have hchainAe : ChainSeg (updateRow s i (setName nm)) none
        (rowMod i (setName nm) e).parent_id ae :=
      chainSeg_of_ancWalk hp₁ maxDepth [(rowMod i (setName nm) e).id]
        (rowMod i (setName nm) e).parent_id ae
        (fun y hy => by
          obtain ⟨p₂, hf₂, _, _⟩ := parentOk_spec hp₁ he₁mem hy
          exact ⟨p₂, hf₂⟩) hwe
    have hval_e : subtreeUpd (updateRow s i (setName nm)) i (pathUpd s.clock)
        (rowMod i (setName nm) e)
        = pathUpd s.clock (rowMod i (setName nm) e) ae := by
      unfold subtreeUpd
      simp only [hwe]
      rw [if_pos (by simp [he₁id])]
    refine ⟨{ entries := es, nextId := s.nextId, clock := s.clock + 1 }, ?_, ?_⟩
    · simp only [rename, he]
      rw [if_neg hnotne, if_neg hnm]
      rw [hes]
    · refine ⟨pathUpd s.clock (rowMod i (setName nm) e) ae, ?_, he₁name, ?_, ?_, ?_⟩
      · rw [show ({ entries := es, nextId := s.nextId, clock := s.clock + 1 } : Store)
            = { entries := (updateRow s i (setName nm)).entries.map
                  (subtreeUpd (updateRow s i (setName nm)) i (pathUpd s.clock)),
                nextId := s.nextId, clock := s.clock + 1 } by rw [← hmap]]
        rw [findEntry_map_entries gid (updateRow s i (setName nm)) s.nextId
          (s.clock + 1) i, hfind₁]
        simp only [Option.map]
        rw [hval_e]
      · rw [hmap]
        refine ⟨ae.map (subtreeUpd (updateRow s i (setName nm)) i (pathUpd s.clock)),
          ?_, ?_⟩
        · exact chainSeg_map s.nextId (s.clock + 1) gid gpar hchainAe
        · rw [map_name_subtreeUpd (updateRow s i (setName nm)) i (pathUpd s.clock)
            (fun _ _ => rfl) ae]
          rfl
      · intro c hc hdesc
        have hci : c.id ≠ i := fun hcieq =>
          no_self_ancestor nd ha he (hcieq ▸ hdesc)
        have hgc : rowMod i (setName nm) c = c := by
          unfold rowMod
          rw [if_neg (by simp [hci])]
        have hcmem₁ : c ∈ (updateRow s i (setName nm)).entries := by
          rw [updateRow_eq s i (setName nm)]
          have hm := List.mem_map_of_mem (rowMod i (setName nm)) hc
          rwa [hgc] at hm
        obtain ⟨ac, hwc⟩ := subtreeMap_ok_walks hes c hcmem₁
        have hdesc₁ : IsAncestor (updateRow s i (setName nm)) i c.id :=
          isAncestor_map s.nextId s.clock hid₀ hpar₀ hdesc
        have hfc₁ : findEntry (updateRow s i (setName nm)) c.id = some c := by
          rw [updateRow_eq s i (setName nm)]
          rw [findEntry_map_entries hid₀ s s.nextId s.clock c.id,
            findEntry_of_mem nd hc]
          simp only [Option.map]
          rw [hgc]
        have he₁in : rowMod i (setName nm) e ∈ ac :=
          ancestor_in_walk nd₁ hfc₁ hwc i (rowMod i (setName nm) e) hfind₁ hdesc₁
        have hvalc : subtreeUpd (updateRow s i (setName nm)) i (pathUpd s.clock) c
            = pathUpd s.clock c ac := by
          unfold subtreeUpd
          simp only [hwc]
          rw [if_pos ?_]
          apply Bool.or_eq_true_iff.mpr
          right
          rw [List.any_eq_true]
          exact ⟨rowMod i (setName nm) e, he₁in, by simp [he₁id]⟩
        have hchainAc : ChainSeg (updateRow s i (setName nm)) none c.parent_id ac :=
          chainSeg_of_ancWalk hp₁ maxDepth [c.id] c.parent_id ac
            (fun y hy => by
              obtain ⟨p₂, hf₂, _, _⟩ := parentOk_spec hp₁ hcmem₁ hy
              exact ⟨p₂, hf₂⟩) hwc
        refine ⟨pathUpd s.clock c ac, ?_, rfl, rfl, ?_⟩
        · show pathUpd s.clock c ac ∈ es
          rw [hmap, ← hvalc]
          exact List.mem_map_of_mem _ hcmem₁
        · rw [hmap]
          refine ⟨ac.map (subtreeUpd (updateRow s i (setName nm)) i
            (pathUpd s.clock)), ?_, ?_⟩
          · exact chainSeg_map s.nextId (s.clock + 1) gid gpar hchainAc
          · rw [map_name_subtreeUpd (updateRow s i (setName nm)) i (pathUpd s.clock)
              (fun _ _ => rfl) ac]
            rfl
      · intro c' hc' hc'par
        simp only at hc'
        rw [hmap] at hc'
        obtain ⟨c₁, hc₁, rfl⟩ := List.mem_map.mp hc'
        rw [updateRow_eq s i (setName nm)] at hc₁
        simp only at hc₁
        obtain ⟨c, hc, rfl⟩ := List.mem_map.mp hc₁
        have hcpar : c.parent_id = some i := by
          rw [← hpar₀ c]
          rw [← subtreeUpd_pres (updateRow s i (setName nm)) i (pathUpd s.clock)
            (·.parent_id) (fun _ _ => rfl) (rowMod i (setName nm) c)]
          exact hc'par
        have hcne : c.id ≠ i := by
          intro hci
          have hce : c = e := mem_id_unique nd hc hmem (hci.trans hide.symm)
          subst hce
          obtain ⟨anc₀, hw₀⟩ := acyclic_spec ha hc
          rw [hcpar, ← hci] at hw₀
          rw [show maxDepth = 63 + 1 from rfl, ancWalk,
            if_pos (List.mem_singleton.mpr rfl)] at hw₀
          cases hw₀
        have hc₁eq : rowMod i (setName nm) c = c := by
          unfold rowMod
          rw [if_neg (by simp [hcne])]
        rw [hc₁eq] at hc'par ⊢
        obtain ⟨ac, hwc⟩ := subtreeMap_ok_walks hes _ hc₁
        rw [hc₁eq] at hwc
        have hchain_c : ChainSeg (updateRow s i (setName nm)) none (some i) ac := by
          have hcc := chainSeg_of_ancWalk hp₁ maxDepth [c.id] c.parent_id ac
            (fun y hy => by
              rw [hcpar] at hy
              cases hy
              exact ⟨_, hfind₁⟩)
            hwc
          rwa [hcpar] at hcc
        have hchain_e : ChainSeg (updateRow s i (setName nm)) none
            (some i) (ae ++ [rowMod i (setName nm) e]) := by
          have hcons := ChainSeg.cons (t := none) (by rwa [he₁id]) hchainAe
          rwa [he₁id] at hcons
        have hac : ac = ae ++ [rowMod i (setName nm) e] :=
          chainSeg_none_unique hchain_c rfl hchain_e
        have hval_c : subtreeUpd (updateRow s i (setName nm)) i (pathUpd s.clock) c
            = pathUpd s.clock c ac := by
          unfold subtreeUpd
          simp only [hwc]
          rw [if_pos ?_]
          apply Bool.or_eq_true_iff.mpr
          right
          rw [List.any_eq_true]
          exact ⟨rowMod i (setName nm) e,
            hac ▸ List.mem_append.mpr (Or.inr (List.mem_singleton.mpr rfl)),
            by simp [he₁id]⟩
        rw [hval_c]
        refine ⟨"/" ++ c.name, ?_⟩
        show mkPath (ac.map (·.name)) c.name
          = mkPath (ae.map (·.name)) (rowMod i (setName nm) e).name ++ ("/" ++ c.name)
        rw [hac, List.map_append]
        simp only [List.map_cons, List.map_nil]
        exact mkPath_append (ae.map (·.name)) (rowMod i (setName nm) e).name c.name

/-- Witness for C5 on the concrete three-row store: renaming the root
folder "A" to "X" is checked against the empty-name rejection, the
resolver-consistency of the renamed row and of all descendants, and
the child-path-extension property. -/
theorem rename_spec_witness :
    rename tStore 0 "" "u" = .error .InvalidName ∧
    (∃ s', rename tStore 0 "X" "u" = .ok s' ∧
      ∃ e', findEntry s' 0 = some e' ∧ e'.name = "X" ∧ PathConsistent s' e' ∧
        (∀ c ∈ tStore.entries, IsAncestor tStore 0 c.id →
          ∃ c' ∈ s'.entries, c'.id = c.id ∧ c'.name = c.name ∧
            PathConsistent s' c') ∧
        ∀ c' ∈ s'.entries, c'.parent_id = some 0 →
          ∃ t, c'.path = e'.path ++ t) := by
  have h := rename_spec tStore 0 "X" "u" tA (by unfold UniqueIds; decide)
    (by unfold ParentOk; decide) (by unfold AcyclicOk; decide) rfl rfl
  exact ⟨h.1, h.2 (by decide)⟩

end Frisync
